import Mathlib

/-!
# BamAlignment: flag queries and the read-group tag scan

A shallow embedding of `src/BamAlignment.h`.

* Strings (`std::string`) are lists of byte values (`Nat`, one per `char`).
* `unsigned int` values are natural numbers reduced modulo `2^32` (`u32`).
* `char* pTagData` is the offset of the cursor from `TagData.data()`.
* Reading a byte of a string at an index at or beyond its size gives `0`
  (`byteAt`): index `size()` holds the terminating NUL of the string, and
  reads further out are given the same value. Such reads go to memory outside
  the string; `GetReadGroupInMemory` is the call with the bytes behind the NUL
  given explicitly.
* The reference argument `readGroup` is a string passed by value and handed
  back in `GetReadGroup`; `CallState.GetReadGroup` is the call on a state in
  which `readGroup` may also be bound to a member of the record.
* `exit(1)` is the outcome `Outcome.exited 1`.
* The `while` loop of `GetReadGroup` is run for at most `TagData.size()` iterations;
  `none` means that it is still running after that many.
-/

namespace BamTools

/-! ## Data model -/

/-- One CIGAR operation (`struct CigarOp`); the field `Type` of the source is `OpType` here. -/
structure CigarOp where
  Length : Nat
  OpType : Nat
  deriving DecidableEq, Repr

/-- The record `struct BamAlignment`, with the data members of the source in their order. -/
structure BamAlignment where
  Name : List Nat
  Length : Nat
  QueryBases : List Nat
  AlignedBases : List Nat
  Qualities : List Nat
  TagData : List Nat
  RefID : Nat
  Position : Nat
  Bin : Nat
  MapQuality : Nat
  AlignmentFlag : Nat
  CigarData : List CigarOp
  MateRefID : Nat
  MatePosition : Nat
  InsertSize : Nat
  deriving DecidableEq, Repr

/-! ## Alignment flag query constants (the private `enum`) -/

def PAIRED : Nat := 1
def PROPER_PAIR : Nat := 2
def UNMAPPED : Nat := 4
def MATE_UNMAPPED : Nat := 8
def REVERSE : Nat := 16
def MATE_REVERSE : Nat := 32
def READ_1 : Nat := 64
def READ_2 : Nat := 128
def SECONDARY : Nat := 256
def QC_FAILED : Nat := 512
def DUPLICATE : Nat := 1024

/-! ## Queries against the alignment flag -/

def BamAlignment.IsPaired (a : BamAlignment) : Bool := (a.AlignmentFlag &&& PAIRED) != 0
def BamAlignment.IsProperPair (a : BamAlignment) : Bool := (a.AlignmentFlag &&& PROPER_PAIR) != 0
def BamAlignment.IsMapped (a : BamAlignment) : Bool := (a.AlignmentFlag &&& UNMAPPED) == 0
def BamAlignment.IsMateMapped (a : BamAlignment) : Bool := (a.AlignmentFlag &&& MATE_UNMAPPED) == 0
def BamAlignment.IsReverseStrand (a : BamAlignment) : Bool := (a.AlignmentFlag &&& REVERSE) != 0
def BamAlignment.IsMateReverseStrand (a : BamAlignment) : Bool :=
  (a.AlignmentFlag &&& MATE_REVERSE) != 0
def BamAlignment.IsFirstMate (a : BamAlignment) : Bool := (a.AlignmentFlag &&& READ_1) != 0
def BamAlignment.IsSecondMate (a : BamAlignment) : Bool := (a.AlignmentFlag &&& READ_2) != 0
def BamAlignment.IsPrimaryAlignment (a : BamAlignment) : Bool :=
  (a.AlignmentFlag &&& SECONDARY) == 0
def BamAlignment.IsFailedQC (a : BamAlignment) : Bool := (a.AlignmentFlag &&& QC_FAILED) != 0
def BamAlignment.IsDuplicate (a : BamAlignment) : Bool := (a.AlignmentFlag &&& DUPLICATE) != 0

/-- The eleven flag queries of a record, in the order of their bits. -/
def BamAlignment.flagQueries (a : BamAlignment) : List Bool :=
  [a.IsPaired, a.IsProperPair, a.IsMapped, a.IsMateMapped, a.IsReverseStrand,
    a.IsMateReverseStrand, a.IsFirstMate, a.IsSecondMate, a.IsPrimaryAlignment,
    a.IsFailedQC, a.IsDuplicate]

/-! ## Machine arithmetic and memory reads -/

/-- Reduction of a natural number to an `unsigned int` (32 bits). -/
def u32 (n : Nat) : Nat := n % 4294967296

/-- The byte of the string `s` at index `i`; `0` at and beyond the end. The value at the
index `size()` is the terminating NUL of the string; the value `0` at an index beyond
`size()` stands for a read outside the string, which the code does not check. -/
def byteAt (s : List Nat) (i : Nat) : Nat := s.getD i 0

/-- C `strlen` on the bytes that start at the cursor: the number of bytes before the
first zero byte, the end of the list standing for the terminating NUL. -/
def strlen : List Nat → Nat
  | [] => 0
  | b :: rest => if b ≠ 0 then strlen rest + 1 else 0

/-- The test `strncmp(p, lit, n) == 0`, where `p` is the list of bytes at the cursor:
bytes are compared one by one, up to `n` of them, stopping at the first difference
(result `false`) or at a NUL common to both (result `true`). -/
def strncmpIsZero : List Nat → List Nat → Nat → Bool
  | _, _, 0 => true
  | p, lit, n + 1 =>
    if p.headD 0 ≠ lit.headD 0 then false
    else if p.headD 0 = 0 then true
    else strncmpIsZero p.tail lit.tail n

/-! ## SkipToNextTag -/

/-- The loop `while(*pTagData) { numBytesParsed++; pTagData++; }` of the cases `Z` and
`H`; the first argument is the list of bytes at the cursor. -/
def skipString : List Nat → Nat → Nat → Nat × Nat
  | [], pTagData, numBytesParsed => (pTagData, numBytesParsed)
  | b :: rest, pTagData, numBytesParsed =>
    if b ≠ 0 then skipString rest (pTagData + 1) (u32 (numBytesParsed + 1))
    else (pTagData, numBytesParsed)

/-- The function `BamAlignment::SkipToNextTag`, on the memory `mem` of the tag data. It
gives the new values of `pTagData` and `numBytesParsed`, or `none` when the `default`
case prints its message and calls `exit(1)`.
Storage types: `A` 65, `c` 99, `C` 67, `s` 115, `S` 83, `f` 102, `i` 105, `I` 73,
`Z` 90, `H` 72. -/
def SkipToNextTag (mem : List Nat) (storageType : Nat) (pTagData numBytesParsed : Nat) :
    Option (Nat × Nat) :=
  if storageType = 65 ∨ storageType = 99 ∨ storageType = 67 then
    some (pTagData + 1, u32 (numBytesParsed + 1))
  else if storageType = 115 ∨ storageType = 83 ∨ storageType = 102 then
    some (pTagData + 2, u32 (numBytesParsed + 2))
  else if storageType = 105 ∨ storageType = 73 then
    some (pTagData + 4, u32 (numBytesParsed + 4))
  else if storageType = 90 ∨ storageType = 72 then
    some (skipString (mem.drop pTagData) pTagData numBytesParsed)
  else
    none

/-! ## GetReadGroup -/

/-- How one pass through the body of the scan loop of `GetReadGroup` ends: at the end
of the body with new values of `pTagData` and `numBytesParsed`, by `break` with
`foundReadGroupTag` set (the cursor `pTagData` is behind the header of the tag), or
inside `SkipToNextTag` by `exit(1)`. -/
inductive BodyEnd where
  | next (pTagData numBytesParsed : Nat)
  | tagFound (pTagData : Nat)
  | exitCalled
  deriving DecidableEq, Repr

/-- The body of the loop of `GetReadGroup`, entered in the state
`(pTagData, numBytesParsed)`. The tag name `"RG"` is the bytes 82, 71. -/
def loopBody (mem : List Nat) (pTagData numBytesParsed : Nat) : BodyEnd :=
  let pTagType := pTagData
  let pTagStorageType := pTagData + 2
  let pTagData := pTagData + 3
  let numBytesParsed := u32 (numBytesParsed + 3)
  if strncmpIsZero (mem.drop pTagType) [82, 71] 2 then
    BodyEnd.tagFound pTagData
  else
    match SkipToNextTag mem (byteAt mem pTagStorageType) pTagData numBytesParsed with
    | none => BodyEnd.exitCalled
    | some (pTagData, numBytesParsed) => BodyEnd.next pTagData numBytesParsed

/-- How the scan loop of `GetReadGroup` ends: by `break` with `foundReadGroupTag` set,
by its condition becoming false, or by `exit(1)`. -/
inductive ScanEnd where
  | found (pTagData : Nat)
  | exhausted
  | exitCalled
  deriving DecidableEq, Repr

/-- The loop `while(numBytesParsed < tagDataLen) { ... }` of `GetReadGroup`, run for at
most `fuel` iterations from the state `(pTagData, numBytesParsed)`; `none` when the loop
is still running after `fuel` iterations. -/
def scanLoop (mem : List Nat) (tagDataLen : Nat) : Nat → Nat → Nat → Option ScanEnd
  | 0, _, numBytesParsed =>
    if numBytesParsed < tagDataLen then none else some ScanEnd.exhausted
  | fuel + 1, pTagData, numBytesParsed =>
    if numBytesParsed < tagDataLen then
      match loopBody mem pTagData numBytesParsed with
      | BodyEnd.next pTagData numBytesParsed =>
        scanLoop mem tagDataLen fuel pTagData numBytesParsed
      | BodyEnd.tagFound pTagData => some (ScanEnd.found pTagData)
      | BodyEnd.exitCalled => some ScanEnd.exitCalled
    else
      some ScanEnd.exhausted

/-- The state `(pTagData, numBytesParsed)` in which the loop of `GetReadGroup` evaluates
its condition after `k` complete passes through its body; `none` when the loop has ended
before. The scan reaches an entry at the offset `p` when `scanState mem len k` is
`some (p, n)` with `n < len` for some `k`. -/
def scanState (mem : List Nat) (tagDataLen : Nat) : Nat → Option (Nat × Nat)
  | 0 => some (0, 0)
  | k + 1 =>
    match scanState mem tagDataLen k with
    | none => none
    | some (pTagData, numBytesParsed) =>
      if numBytesParsed < tagDataLen then
        match loopBody mem pTagData numBytesParsed with
        | BodyEnd.next pTagData numBytesParsed => some (pTagData, numBytesParsed)
        | BodyEnd.tagFound _ => none
        | BodyEnd.exitCalled => none
      else
        none

/-- What a call of `GetReadGroup` does: it returns a `bool` and leaves a value in the
argument `readGroup`, or the process is ended by `exit(status)`. -/
inductive Outcome where
  | returned (result : Bool) (readGroup : List Nat)
  | exited (status : Nat)
  deriving DecidableEq, Repr

/-- The method `BamAlignment::GetReadGroup`; `readGroup` is the value of the reference
argument at the call. `none`: the loop is still running after `TagData.size()`
iterations. -/
def BamAlignment.GetReadGroup (a : BamAlignment) (readGroup : List Nat) : Option Outcome :=
  if a.TagData.isEmpty then some (Outcome.returned false readGroup)
  else
    let tagDataLen := u32 a.TagData.length
    match scanLoop a.TagData tagDataLen a.TagData.length 0 0 with
    | none => none
    | some ScanEnd.exhausted => some (Outcome.returned false readGroup)
    | some ScanEnd.exitCalled => some (Outcome.exited 1)
    | some (ScanEnd.found pTagData) =>
      let readGroupLen := u32 (strlen (a.TagData.drop pTagData))
      some (Outcome.returned true ((a.TagData.drop pTagData).take readGroupLen))

/-- The scan of `GetReadGroup` reaches an entry at the offset `p`: after some number of
complete passes through the body of the loop the cursor `pTagData` is at the offset `p`
and the condition of the loop holds, so that the body is entered there. -/
def BamAlignment.ScanReaches (a : BamAlignment) (p : Nat) : Prop :=
  ∃ k n, scanState a.TagData (u32 a.TagData.length) k = some (p, n) ∧
    n < u32 a.TagData.length

/-- The method `BamAlignment::GetReadGroup` in a memory in which the bytes `beyond` lie
behind the terminating NUL of `TagData`: the cursor reads from `TagData`, from its NUL
at the index `size()` and, when it runs past the NUL, from `beyond`. The statements are
those of `GetReadGroup`. -/
def BamAlignment.GetReadGroupInMemory (a : BamAlignment) (beyond readGroup : List Nat) :
    Option Outcome :=
  if a.TagData.isEmpty then some (Outcome.returned false readGroup)
  else
    let mem := a.TagData ++ 0 :: beyond
    let tagDataLen := u32 a.TagData.length
    match scanLoop mem tagDataLen a.TagData.length 0 0 with
    | none => none
    | some ScanEnd.exhausted => some (Outcome.returned false readGroup)
    | some ScanEnd.exitCalled => some (Outcome.exited 1)
    | some (ScanEnd.found pTagData) =>
      let readGroupLen := u32 (strlen (mem.drop pTagData))
      some (Outcome.returned true ((mem.drop pTagData).take readGroupLen))

/-- The scan of `GetReadGroupInMemory` reaches an entry at the offset `p`: as
`ScanReaches`, in the memory in which the bytes `beyond` lie behind the NUL. -/
def BamAlignment.ScanReachesInMemory (a : BamAlignment) (beyond : List Nat) (p : Nat) :
    Prop :=
  ∃ k n, scanState (a.TagData ++ 0 :: beyond) (u32 a.TagData.length) k = some (p, n) ∧
    n < u32 a.TagData.length

/-- The string object to which the reference argument `readGroup` of a call is bound: a
string outside the record, or one of the string members `Name`, `QueryBases`,
`AlignedBases`, `Qualities` of the record of the call, as in `al.GetReadGroup(al.Name)`.
A reference to `TagData` itself is left out: `resize` and `memcpy` would then work on
the buffer that the cursor `pTagData` points into. -/
inductive ReadGroupRef where
  | outside
  | memberName
  | memberQueryBases
  | memberAlignedBases
  | memberQualities
  deriving DecidableEq, Repr

/-- The objects that a call of `GetReadGroup` can reach: the record of the call and the
string outside the record to which `readGroup` may be bound. -/
structure CallState where
  self : BamAlignment
  outside : List Nat
  deriving DecidableEq, Repr

/-- The value of the string to which `readGroup` is bound. -/
def CallState.readGroup (st : CallState) (r : ReadGroupRef) : List Nat :=
  match r with
  | ReadGroupRef.outside => st.outside
  | ReadGroupRef.memberName => st.self.Name
  | ReadGroupRef.memberQueryBases => st.self.QueryBases
  | ReadGroupRef.memberAlignedBases => st.self.AlignedBases
  | ReadGroupRef.memberQualities => st.self.Qualities

/-- The statements `readGroup.resize(readGroupLen); memcpy((char*)readGroup.data(),
pTagData, readGroupLen);`: the string to which `readGroup` is bound gets the value
`value`. -/
def CallState.assignReadGroup (st : CallState) (r : ReadGroupRef) (value : List Nat) :
    CallState :=
  match r with
  | ReadGroupRef.outside => { st with outside := value }
  | ReadGroupRef.memberName => { st with self := { st.self with Name := value } }
  | ReadGroupRef.memberQueryBases => { st with self := { st.self with QueryBases := value } }
  | ReadGroupRef.memberAlignedBases =>
    { st with self := { st.self with AlignedBases := value } }
  | ReadGroupRef.memberQualities => { st with self := { st.self with Qualities := value } }

/-- How a call of `GetReadGroup` ends: it returns a `bool` and leaves the state `state`,
or the process is ended by `exit(status)`. -/
inductive CallEnd where
  | returned (state : CallState) (result : Bool)
  | exited (status : Nat)
  deriving DecidableEq, Repr

/-- The method `BamAlignment::GetReadGroup` as a transformer of the state of the call,
statement by statement: the two `return false` leave the state as it is, the scan
assigns to the local variables only, and the last three statements assign to the string
to which `readGroup` is bound. -/
def CallState.GetReadGroup (st : CallState) (readGroup : ReadGroupRef) : Option CallEnd :=
  if st.self.TagData.isEmpty then some (CallEnd.returned st false)
  else
    let tagDataLen := u32 st.self.TagData.length
    match scanLoop st.self.TagData tagDataLen st.self.TagData.length 0 0 with
    | none => none
    | some ScanEnd.exhausted => some (CallEnd.returned st false)
    | some ScanEnd.exitCalled => some (CallEnd.exited 1)
    | some (ScanEnd.found pTagData) =>
      let readGroupLen := u32 (strlen (st.self.TagData.drop pTagData))
      some (CallEnd.returned
        (st.assignReadGroup readGroup ((st.self.TagData.drop pTagData).take readGroupLen))
        true)

/-- The maximal run of non-zero bytes at the start of a list of bytes. -/
def nonZeroRun (l : List Nat) : List Nat := l.takeWhile (fun b => b != 0)

/-! ## Tag blocks written from the encoding table -/

/-- A tag entry `[2 bytes: tag name][1 byte: type code][value bytes]`. -/
structure TagEntry where
  name0 : Nat
  name1 : Nat
  storageType : Nat
  value : List Nat
  deriving DecidableEq, Repr

/-- The bytes of a tag entry. -/
def TagEntry.encode (e : TagEntry) : List Nat :=
  e.name0 :: e.name1 :: e.storageType :: e.value

/-- The tag block of a list of entries: the concatenation of their bytes. -/
def encodeTags : List TagEntry → List Nat
  | [] => []
  | e :: es => e.encode ++ encodeTags es

/-- The width of the value of a fixed-width type code in the type-width table:
`A`, `c`, `C` 1; `s`, `S`, `f` 2; `i`, `I` 4. -/
def fixedWidth (storageType : Nat) : Option Nat :=
  if storageType = 65 ∨ storageType = 99 ∨ storageType = 67 then some 1
  else if storageType = 115 ∨ storageType = 83 ∨ storageType = 102 then some 2
  else if storageType = 105 ∨ storageType = 73 then some 4
  else none

/-- The entry has a fixed-width type code and a value of that width. -/
def TagEntry.IsFixedWidth (e : TagEntry) : Prop :=
  fixedWidth e.storageType = some e.value.length

/-- The entry has the type code `Z` or `H` and a value made of a run of non-zero bytes
followed by one zero byte. -/
def TagEntry.IsString (e : TagEntry) : Prop :=
  (e.storageType = 90 ∨ e.storageType = 72) ∧
    ∃ s : List Nat, (∀ b ∈ s, b ≠ 0) ∧ e.value = s ++ [0]

/-- The entry is well formed: its type code is in the table and its value has the
form the table gives for it. -/
def TagEntry.WellFormed (e : TagEntry) : Prop :=
  e.IsFixedWidth ∨ e.IsString

/-- The entry has the tag name `"RG"`. -/
def TagEntry.IsNamedRG (e : TagEntry) : Prop :=
  e.name0 = 82 ∧ e.name1 = 71

/-- The type code is one of the table: `A`, `c`, `C`, `s`, `S`, `f`, `i`, `I`, `Z`, `H`. -/
def inTypeTable (storageType : Nat) : Prop :=
  storageType = 65 ∨ storageType = 99 ∨ storageType = 67 ∨ storageType = 115 ∨
  storageType = 83 ∨ storageType = 102 ∨ storageType = 105 ∨ storageType = 73 ∨
  storageType = 90 ∨ storageType = 72

instance (e : TagEntry) : Decidable e.IsFixedWidth := by
  unfold TagEntry.IsFixedWidth; infer_instance

instance (e : TagEntry) : Decidable e.IsNamedRG := by
  unfold TagEntry.IsNamedRG; infer_instance

instance (storageType : Nat) : Decidable (inTypeTable storageType) := by
  unfold inTypeTable; infer_instance

/-- A record with the tag data `tags` and every other member zero or empty. -/
def recordWithTags (tags : List Nat) : BamAlignment :=
  { Name := [], Length := 0, QueryBases := [], AlignedBases := [], Qualities := [],
    TagData := tags, RefID := 0, Position := 0, Bin := 0, MapQuality := 0,
    AlignmentFlag := 0, CigarData := [], MateRefID := 0, MatePosition := 0, InsertSize := 0 }

/-- A record with the alignment flag `f` and every other member zero or empty. -/
def recordWithFlag (f : Nat) : BamAlignment :=
  { Name := [], Length := 0, QueryBases := [], AlignedBases := [], Qualities := [],
    TagData := [], RefID := 0, Position := 0, Bin := 0, MapQuality := 0,
    AlignmentFlag := f, CigarData := [], MateRefID := 0, MatePosition := 0, InsertSize := 0 }

/-! ## Lemmas on the memory reads -/

theorem headD_drop (mem : List Nat) (p : Nat) : (mem.drop p).headD 0 = byteAt mem p := by
  induction mem generalizing p with
  | nil => simp [byteAt]
  | cons b rest ih =>
    cases p with
    | zero => simp [byteAt]
    | succ q => simp [byteAt]

theorem strncmp_RG (mem : List Nat) (p : Nat) :
    strncmpIsZero (mem.drop p) [82, 71] 2 = true ↔ byteAt mem p = 82 ∧ byteAt mem (p + 1) = 71 := by
  have h1 : ((mem.drop p).tail).headD 0 = byteAt mem (p + 1) := by
    rw [← headD_drop mem (p + 1), List.tail_drop]
  simp only [strncmpIsZero, headD_drop, h1, List.headD_cons, List.tail_cons]
  by_cases h : byteAt mem p = 82
  · by_cases h2 : byteAt mem (p + 1) = 71 <;> simp [h, h2]
  · simp [h]

theorem strlen_le_length (l : List Nat) : strlen l ≤ l.length := by
  induction l with
  | nil => simp [strlen]
  | cons b rest ih =>
    by_cases h : b = 0 <;> simp [strlen, h]
    omega

theorem strlen_append_zero (s t : List Nat) (hs : ∀ b ∈ s, b ≠ 0) :
    strlen (s ++ 0 :: t) = s.length := by
  induction s with
  | nil => simp [strlen]
  | cons b rest ih =>
    have hb : b ≠ 0 := hs b (by simp)
    have hr : ∀ c ∈ rest, c ≠ 0 := fun c hc => hs c (by simp [hc])
    simp [strlen, hb, ih hr]

theorem strlen_of_no_zero (s : List Nat) (hs : ∀ b ∈ s, b ≠ 0) : strlen s = s.length := by
  induction s with
  | nil => simp [strlen]
  | cons b rest ih =>
    have hb : b ≠ 0 := hs b (by simp)
    have hr : ∀ c ∈ rest, c ≠ 0 := fun c hc => hs c (by simp [hc])
    simp [strlen, hb, ih hr]

theorem drop_no_zero_strlen (mem : List Nat) (q : Nat)
    (hz : ∀ b ∈ mem.drop q, b ≠ 0) : strlen (mem.drop q) = mem.length - q := by
  rw [strlen_of_no_zero _ hz, List.length_drop]

theorem byteAt_append_right (pre l : List Nat) (i : Nat) :
    byteAt (pre ++ l) (pre.length + i) = byteAt l i := by
  induction pre with
  | nil => simp
  | cons b rest ih =>
    have : (b :: rest).length + i = (rest.length + i) + 1 := by simp; omega
    rw [this]
    simpa [byteAt] using ih

theorem byteAt_append_right_zero (pre l : List Nat) :
    byteAt (pre ++ l) pre.length = byteAt l 0 := by
  simpa using byteAt_append_right pre l 0

theorem u32_of_lt {n : Nat} (h : n < 4294967296) : u32 n = n := by
  unfold u32; omega

theorem skipString_eq (l : List Nat) (p n : Nat) (h : n + strlen l < 4294967296) :
    skipString l p n = (p + strlen l, n + strlen l) := by
  induction l generalizing p n with
  | nil => simp [skipString, strlen]
  | cons b rest ih =>
    by_cases hb : b = 0
    · simp [skipString, strlen, hb]
    · simp only [strlen, hb, ne_eq, not_false_eq_true, if_true] at h
      have hu : u32 (n + 1) = n + 1 := by unfold u32; omega
      simp only [skipString, strlen, hb, ne_eq, not_false_eq_true, if_true, hu]
      rw [ih (p + 1) (n + 1) (by omega)]
      ext <;> simp <;> omega

/-! ## Lemmas on `SkipToNextTag` -/

theorem SkipToNextTag_fixed (mem : List Nat) (t w p n : Nat) (h : fixedWidth t = some w) :
    SkipToNextTag mem t p n = some (p + w, u32 (n + w)) := by
  unfold fixedWidth at h
  unfold SkipToNextTag
  split_ifs at h ⊢ <;> simp_all

theorem SkipToNextTag_not_in_table (mem : List Nat) (t p n : Nat) (h : ¬ inTypeTable t) :
    SkipToNextTag mem t p n = none := by
  unfold inTypeTable at h
  unfold SkipToNextTag
  split_ifs <;> first | rfl | (exfalso; omega)

/-! ## Lemmas on the scan loop -/

theorem scanLoop_of_not_lt (mem : List Nat) (len fuel p n : Nat) (h : ¬ n < len) :
    scanLoop mem len fuel p n = some ScanEnd.exhausted := by
  cases fuel <;> simp [scanLoop, h]

theorem scanState_succ (mem : List Nat) (len k p n p' n' : Nat)
    (hk : scanState mem len k = some (p, n)) (hn : n < len)
    (hb : loopBody mem p n = BodyEnd.next p' n') :
    scanState mem len (k + 1) = some (p', n') := by
  simp [scanState, hk, hn, hb]

theorem scanState_succ_inv (mem : List Nat) (len k p' n' : Nat)
    (h : scanState mem len (k + 1) = some (p', n')) :
    ∃ p n, scanState mem len k = some (p, n) ∧ n < len ∧
      loopBody mem p n = BodyEnd.next p' n' := by
  simp only [scanState] at h
  cases hk : scanState mem len k with
  | none => simp [hk] at h
  | some st =>
    obtain ⟨p, n⟩ := st
    simp only [hk] at h
    by_cases hn : n < len
    · simp only [hn, if_true] at h
      cases hb : loopBody mem p n with
      | next q m =>
        simp only [hb, Option.some.injEq, Prod.mk.injEq] at h
        exact ⟨p, n, rfl, hn, by rw [hb, h.1, h.2]⟩
      | tagFound q => simp [hb] at h
      | exitCalled => simp [hb] at h
    · simp [hn] at h

theorem scanLoop_of_scanState (mem : List Nat) (len : Nat) (k : Nat) :
    ∀ (fuel p n : Nat), scanState mem len k = some (p, n) →
      scanLoop mem len (fuel + k) 0 0 = scanLoop mem len fuel p n := by
  induction k with
  | zero =>
    intro fuel p n h
    simp only [scanState, Option.some.injEq, Prod.mk.injEq] at h
    simp [← h.1, ← h.2]
  | succ k ih =>
    intro fuel p' n' h
    obtain ⟨p, n, hk, hn, hb⟩ := scanState_succ_inv mem len k p' n' h
    have e : fuel + (k + 1) = (fuel + 1) + k := by omega
    rw [e, ih (fuel + 1) p n hk]
    simp [scanLoop, hn, hb]

theorem loopBody_of_RG (mem : List Nat) (p n : Nat)
    (h0 : byteAt mem p = 82) (h1 : byteAt mem (p + 1) = 71) :
    loopBody mem p n = BodyEnd.tagFound (p + 3) := by
  have h := (strncmp_RG mem p).2 ⟨h0, h1⟩
  simp [loopBody, h]

theorem loopBody_of_not_RG (mem : List Nat) (p n : Nat)
    (h : ¬ (byteAt mem p = 82 ∧ byteAt mem (p + 1) = 71)) :
    loopBody mem p n =
      match SkipToNextTag mem (byteAt mem (p + 2)) (p + 3) (u32 (n + 3)) with
      | none => BodyEnd.exitCalled
      | some (q, m) => BodyEnd.next q m := by
  have h' : ¬ strncmpIsZero (mem.drop p) [82, 71] 2 = true := fun hh => h ((strncmp_RG mem p).1 hh)
  simp [loopBody, h']

theorem loopBody_next_inv (mem : List Nat) (p p' n' : Nat)
    (hlen : mem.length + 8 ≤ 4294967296) (hp : p < mem.length)
    (h : loopBody mem p p = BodyEnd.next p' n') :
    n' = p' ∧ p + 3 ≤ p' ∧ p' ≤ mem.length + 6 := by
  have hu : u32 (p + 3) = p + 3 := u32_of_lt (by omega)
  simp only [loopBody, hu] at h
  split at h
  · simp at h
  · split at h
    · simp at h
    · rename_i q m hs
      simp only [BodyEnd.next.injEq] at h
      obtain ⟨rfl, rfl⟩ := h
      simp only [SkipToNextTag] at hs
      have h1 : u32 (p + 3 + 1) = p + 3 + 1 := u32_of_lt (by omega)
      have h2 : u32 (p + 3 + 2) = p + 3 + 2 := u32_of_lt (by omega)
      have h4 : u32 (p + 3 + 4) = p + 3 + 4 := u32_of_lt (by omega)
      have hsl := strlen_le_length (mem.drop (p + 3))
      rw [List.length_drop] at hsl
      have hsk := skipString_eq (mem.drop (p + 3)) (p + 3) (p + 3) (by omega)
      rw [h1, h2, h4, hsk] at hs
      split_ifs at hs <;> simp only [Option.some.injEq, Prod.mk.injEq] at hs <;>
        obtain ⟨rfl, rfl⟩ := hs <;> omega

theorem scanState_inv (mem : List Nat) (k : Nat)
    (hlen : mem.length + 8 ≤ 4294967296) :
    ∀ p n, scanState mem mem.length k = some (p, n) →
      n = p ∧ 3 * k ≤ p ∧ p ≤ mem.length + 6 := by
  induction k with
  | zero =>
    intro p n h
    simp only [scanState, Option.some.injEq, Prod.mk.injEq] at h
    omega
  | succ k ih =>
    intro p' n' h
    obtain ⟨p, n, hk, hn, hb⟩ := scanState_succ_inv mem mem.length k p' n' h
    obtain ⟨rfl, h3, -⟩ := ih p n hk
    have := loopBody_next_inv mem n p' n' hlen hn hb
    omega

theorem scanLoop_at_reached (a : BamAlignment) (p : Nat)
    (hlen : a.TagData.length + 8 ≤ 4294967296) (h : a.ScanReaches p) :
    p < a.TagData.length ∧
      ∃ fuel, scanLoop a.TagData (u32 a.TagData.length) a.TagData.length 0 0 =
        scanLoop a.TagData (u32 a.TagData.length) (fuel + 1) p p := by
  have hu : u32 a.TagData.length = a.TagData.length := u32_of_lt (by omega)
  obtain ⟨k, n, hk, hn⟩ := h
  rw [hu] at hk hn ⊢
  obtain ⟨rfl, h3, -⟩ := scanState_inv a.TagData k hlen p n hk
  refine ⟨hn, a.TagData.length - k - 1, ?_⟩
  have key := scanLoop_of_scanState a.TagData a.TagData.length k
    (a.TagData.length - k - 1 + 1) n n hk
  have e : (a.TagData.length - k - 1 + 1) + k = a.TagData.length := by omega
  rw [e] at key
  exact key

theorem isEmpty_false_of_pos (l : List Nat) (n : Nat) (h : n < l.length) : l.isEmpty = false := by
  cases l with
  | nil => simp at h
  | cons b rest => rfl

theorem GetReadGroup_of_tagFound (a : BamAlignment) (readGroup : List Nat) (p q : Nat)
    (hlen : a.TagData.length + 8 ≤ 4294967296) (h : a.ScanReaches p)
    (hb : loopBody a.TagData p p = BodyEnd.tagFound q) :
    a.GetReadGroup readGroup = some (Outcome.returned true
      ((a.TagData.drop q).take (strlen (a.TagData.drop q)))) := by
  obtain ⟨hp, fuel, hf⟩ := scanLoop_at_reached a p hlen h
  have hu : u32 a.TagData.length = a.TagData.length := u32_of_lt (by omega)
  have hs := strlen_le_length (a.TagData.drop q)
  rw [List.length_drop] at hs
  have hu2 : u32 (strlen (a.TagData.drop q)) = strlen (a.TagData.drop q) := u32_of_lt (by omega)
  have hl : scanLoop a.TagData (u32 a.TagData.length) a.TagData.length 0 0 =
      some (ScanEnd.found q) := by
    rw [hf]; simp [scanLoop, hu, hp, hb]
  simp [BamAlignment.GetReadGroup, isEmpty_false_of_pos _ _ hp, hl, hu2]

theorem GetReadGroup_of_exitCalled (a : BamAlignment) (readGroup : List Nat) (p : Nat)
    (hlen : a.TagData.length + 8 ≤ 4294967296) (h : a.ScanReaches p)
    (hb : loopBody a.TagData p p = BodyEnd.exitCalled) :
    a.GetReadGroup readGroup = some (Outcome.exited 1) := by
  obtain ⟨hp, fuel, hf⟩ := scanLoop_at_reached a p hlen h
  have hu : u32 a.TagData.length = a.TagData.length := u32_of_lt (by omega)
  have hl : scanLoop a.TagData (u32 a.TagData.length) a.TagData.length 0 0 =
      some ScanEnd.exitCalled := by
    rw [hf]; simp [scanLoop, hu, hp, hb]
  simp [BamAlignment.GetReadGroup, isEmpty_false_of_pos _ _ hp, hl]

theorem GetReadGroup_of_next_exhausted (a : BamAlignment) (readGroup : List Nat) (p q m : Nat)
    (hlen : a.TagData.length + 8 ≤ 4294967296) (h : a.ScanReaches p)
    (hb : loopBody a.TagData p p = BodyEnd.next q m) (hm : a.TagData.length ≤ m) :
    a.GetReadGroup readGroup = some (Outcome.returned false readGroup) := by
  obtain ⟨hp, fuel, hf⟩ := scanLoop_at_reached a p hlen h
  have hu : u32 a.TagData.length = a.TagData.length := u32_of_lt (by omega)
  have hl : scanLoop a.TagData (u32 a.TagData.length) a.TagData.length 0 0 =
      some ScanEnd.exhausted := by
    rw [hf]
    simp only [scanLoop, hu, hp, hb, if_true]
    exact scanLoop_of_not_lt _ _ _ _ _ (by omega)
  simp [BamAlignment.GetReadGroup, isEmpty_false_of_pos _ _ hp, hl]

/-! ## The scan of a block of fixed-width entries -/

theorem encodeTags_append (P Q : List TagEntry) :
    encodeTags (P ++ Q) = encodeTags P ++ encodeTags Q := by
  induction P with
  | nil => simp [encodeTags]
  | cons e es ih => simp [encodeTags, ih]

theorem loopBody_fixed_entry (pre rest : List Nat) (e : TagEntry)
    (hf : e.IsFixedWidth) (hn : ¬ e.IsNamedRG)
    (hlen : pre.length + e.encode.length < 4294967296) :
    loopBody (pre ++ (e.encode ++ rest)) pre.length pre.length =
      BodyEnd.next (pre.length + e.encode.length) (pre.length + e.encode.length) := by
  have b0 : byteAt (pre ++ (e.encode ++ rest)) pre.length = e.name0 := by
    rw [byteAt_append_right_zero]; simp [TagEntry.encode, byteAt]
  have b1 : byteAt (pre ++ (e.encode ++ rest)) (pre.length + 1) = e.name1 := by
    rw [byteAt_append_right]; simp [TagEntry.encode, byteAt]
  have b2 : byteAt (pre ++ (e.encode ++ rest)) (pre.length + 2) = e.storageType := by
    rw [byteAt_append_right]; simp [TagEntry.encode, byteAt]
  have hl : e.encode.length = e.value.length + 3 := by simp [TagEntry.encode]
  rw [loopBody_of_not_RG _ _ _ (by rw [b0, b1]; exact hn), b2,
    SkipToNextTag_fixed _ _ _ _ _ hf]
  have h1 : u32 (pre.length + 3) = pre.length + 3 := u32_of_lt (by omega)
  have h2 : u32 (pre.length + 3 + e.value.length) = pre.length + 3 + e.value.length :=
    u32_of_lt (by omega)
  simp only [h1, h2, hl]
  congr 1 <;> omega

theorem scanState_fixed_entries (P : List TagEntry) :
    ∀ rest : List Nat, (∀ e ∈ P, e.IsFixedWidth ∧ ¬ e.IsNamedRG) →
      (encodeTags P ++ rest).length + 8 ≤ 4294967296 →
      scanState (encodeTags P ++ rest) (encodeTags P ++ rest).length P.length =
        some ((encodeTags P).length, (encodeTags P).length) := by
  induction P using List.reverseRecOn with
  | nil => intro rest _ _; simp [scanState, encodeTags]
  | append_singleton P e ih =>
    intro rest hP hlen
    have hmem : encodeTags (P ++ [e]) ++ rest = encodeTags P ++ (e.encode ++ rest) := by
      simp [encodeTags_append, encodeTags]
    have hl : (encodeTags (P ++ [e])).length = (encodeTags P).length + e.encode.length := by
      simp [encodeTags_append, encodeTags]
    have hel : e.encode.length = e.value.length + 3 := by simp [TagEntry.encode]
    rw [hmem] at hlen ⊢
    have ihP := ih (e.encode ++ rest) (fun x hx => hP x (by simp [hx])) hlen
    have he := hP e (by simp)
    have hk : (P ++ [e]).length = P.length + 1 := by simp
    rw [hk, hl]
    refine scanState_succ _ _ _ _ _ _ _ ihP ?_ ?_
    · simp only [List.length_append]; omega
    · simp only [List.length_append] at hlen
      exact loopBody_fixed_entry _ _ _ he.1 he.2 (by omega)

theorem scanReaches_after_fixed_entries (a : BamAlignment) (P : List TagEntry) (rest : List Nat)
    (hP : ∀ e ∈ P, e.IsFixedWidth ∧ ¬ e.IsNamedRG) (hr : rest ≠ [])
    (hd : a.TagData = encodeTags P ++ rest)
    (hlen : a.TagData.length + 8 ≤ 4294967296) :
    a.ScanReaches (encodeTags P).length := by
  have hu : u32 a.TagData.length = a.TagData.length := u32_of_lt (by omega)
  refine ⟨P.length, (encodeTags P).length, ?_, ?_⟩
  · rw [hu, hd]
    exact scanState_fixed_entries P rest hP (by rw [← hd]; exact hlen)
  · rw [hu, hd, List.length_append]
    have : 0 < rest.length := List.length_pos.2 hr
    omega

/-! ## Lemmas on the flag queries -/

theorem land_two_pow_eq_zero (f k : Nat) : f &&& 2 ^ k = 0 ↔ f.testBit k = false := by
  constructor
  · intro h
    have := Nat.testBit_and f (2 ^ k) k
    rw [h, Nat.testBit_two_pow_self] at this
    simpa using this.symm
  · intro h
    apply Nat.eq_of_testBit_eq
    intro i
    rw [Nat.testBit_and, Nat.testBit_two_pow]
    by_cases hk : k = i
    · subst hk; simp [h]
    · simp [hk]

theorem bne_land_two_pow (f k : Nat) : ((f &&& 2 ^ k) != 0) = f.testBit k := by
  cases h : f.testBit k
  · simp [(land_two_pow_eq_zero f k).2 h]
  · have : f &&& 2 ^ k ≠ 0 := fun h0 => by
      rw [(land_two_pow_eq_zero f k).1 h0] at h; cases h
    simp [this]

theorem beq_land_two_pow (f k : Nat) : ((f &&& 2 ^ k) == 0) = !f.testBit k := by
  cases h : f.testBit k
  · simp [(land_two_pow_eq_zero f k).2 h]
  · have : f &&& 2 ^ k ≠ 0 := fun h0 => by
      rw [(land_two_pow_eq_zero f k).1 h0] at h; cases h
    simp [this]

theorem flagQueries_eq (a : BamAlignment) :
    a.flagQueries =
      [a.AlignmentFlag.testBit 0, a.AlignmentFlag.testBit 1, !a.AlignmentFlag.testBit 2,
        !a.AlignmentFlag.testBit 3, a.AlignmentFlag.testBit 4, a.AlignmentFlag.testBit 5,
        a.AlignmentFlag.testBit 6, a.AlignmentFlag.testBit 7, !a.AlignmentFlag.testBit 8,
        a.AlignmentFlag.testBit 9, a.AlignmentFlag.testBit 10] := by
  have h0 : (a.AlignmentFlag &&& 1 != 0) = a.AlignmentFlag.testBit 0 := bne_land_two_pow _ 0
  have h1 : (a.AlignmentFlag &&& 2 != 0) = a.AlignmentFlag.testBit 1 := bne_land_two_pow _ 1
  have h2 : (a.AlignmentFlag &&& 4 == 0) = !a.AlignmentFlag.testBit 2 := beq_land_two_pow _ 2
  have h3 : (a.AlignmentFlag &&& 8 == 0) = !a.AlignmentFlag.testBit 3 := beq_land_two_pow _ 3
  have h4 : (a.AlignmentFlag &&& 16 != 0) = a.AlignmentFlag.testBit 4 := bne_land_two_pow _ 4
  have h5 : (a.AlignmentFlag &&& 32 != 0) = a.AlignmentFlag.testBit 5 := bne_land_two_pow _ 5
  have h6 : (a.AlignmentFlag &&& 64 != 0) = a.AlignmentFlag.testBit 6 := bne_land_two_pow _ 6
  have h7 : (a.AlignmentFlag &&& 128 != 0) = a.AlignmentFlag.testBit 7 := bne_land_two_pow _ 7
  have h8 : (a.AlignmentFlag &&& 256 == 0) = !a.AlignmentFlag.testBit 8 :=
    beq_land_two_pow _ 8
  have h9 : (a.AlignmentFlag &&& 512 != 0) = a.AlignmentFlag.testBit 9 := bne_land_two_pow _ 9
  have h10 : (a.AlignmentFlag &&& 1024 != 0) = a.AlignmentFlag.testBit 10 :=
    bne_land_two_pow _ 10
  simp only [BamAlignment.flagQueries, BamAlignment.IsPaired, BamAlignment.IsProperPair,
    BamAlignment.IsMapped, BamAlignment.IsMateMapped, BamAlignment.IsReverseStrand,
    BamAlignment.IsMateReverseStrand, BamAlignment.IsFirstMate, BamAlignment.IsSecondMate,
    BamAlignment.IsPrimaryAlignment, BamAlignment.IsFailedQC, BamAlignment.IsDuplicate,
    PAIRED, PROPER_PAIR, UNMAPPED, MATE_UNMAPPED, REVERSE, MATE_REVERSE, READ_1, READ_2,
    SECONDARY, QC_FAILED, DUPLICATE]
  rw [h0, h1, h2, h3, h4, h5, h6, h7, h8, h9, h10]

theorem testBit_xor_two_pow (f k j : Nat) :
    (f ^^^ 2 ^ k).testBit j = if j = k then !f.testBit j else f.testBit j := by
  rw [Nat.testBit_xor, Nat.testBit_two_pow]
  by_cases h : j = k
  · subst h; simp
  · have h' : ¬ k = j := fun e => h e.symm
    simp [h, h']

/-! ## The read-group lookup: claims C1 to C7 -/

/-- C1 (failing input). The block `"XX" Z "abc" 0x00 "RG" Z "sample1" 0x00` is the
concatenation of two well-formed entries, the second named `"RG"` with the `Z` value
`sample1`; the call on it ends in `exit(1)`: the skip of the `Z` value stops on its zero
byte, and the next header is read from there. -/
theorem GetReadGroup_string_before_RG_exits :
    (∀ e ∈ [(⟨88, 88, 90, [97, 98, 99, 0]⟩ : TagEntry),
        ⟨82, 71, 90, [115, 97, 109, 112, 108, 101, 49, 0]⟩], e.WellFormed) ∧
    encodeTags [⟨88, 88, 90, [97, 98, 99, 0]⟩,
        ⟨82, 71, 90, [115, 97, 109, 112, 108, 101, 49, 0]⟩] =
      [88, 88, 90, 97, 98, 99, 0, 82, 71, 90, 115, 97, 109, 112, 108, 101, 49, 0] ∧
    loopBody [88, 88, 90, 97, 98, 99, 0, 82, 71, 90, 115, 97, 109, 112, 108, 101, 49, 0] 0 0 =
      BodyEnd.next 6 6 ∧
    loopBody [88, 88, 90, 97, 98, 99, 0, 82, 71, 90, 115, 97, 109, 112, 108, 101, 49, 0] 6 6 =
      BodyEnd.exitCalled ∧
    (recordWithTags [88, 88, 90, 97, 98, 99, 0, 82, 71, 90, 115, 97, 109, 112, 108, 101,
        49, 0]).GetReadGroup [] = some (Outcome.exited 1) := by
  refine ⟨?_, by decide⟩
  intro e he
  simp only [List.mem_cons, List.mem_singleton, List.not_mem_nil, or_false] at he
  rcases he with rfl | rfl
  · exact Or.inr ⟨Or.inl rfl, [97, 98, 99], by decide, rfl⟩
  · exact Or.inr ⟨Or.inl rfl, [115, 97, 109, 112, 108, 101, 49], by decide, rfl⟩

/-- C2. First match wins: for a tag block `P ++ "RG" ++ [Z] ++ s ++ [0] ++ t`, where `P`
is the concatenation of entries with fixed-width type codes and names other than `"RG"`,
`s` has no zero byte and `t` is any byte string, `GetReadGroup` returns `true` and sets
`readGroup` to exactly `s` (tag data shorter than `2^32 - 8` bytes, so that the
`unsigned int` counter does not wrap). -/
theorem GetReadGroup_first_match (a : BamAlignment) (readGroup : List Nat)
    (P : List TagEntry) (s t : List Nat)
    (hP : ∀ e ∈ P, e.IsFixedWidth ∧ ¬ e.IsNamedRG)
    (hs : ∀ b ∈ s, b ≠ 0)
    (hd : a.TagData = encodeTags P ++ ([82, 71, 90] ++ s ++ [0] ++ t))
    (hlen : a.TagData.length + 8 ≤ 4294967296) :
    a.GetReadGroup readGroup = some (Outcome.returned true s) := by
  have hr := scanReaches_after_fixed_entries a P ([82, 71, 90] ++ s ++ [0] ++ t) hP
    (by simp) hd hlen
  have b0 : byteAt a.TagData (encodeTags P).length = 82 := by
    rw [hd, byteAt_append_right_zero]; simp [byteAt]
  have b1 : byteAt a.TagData ((encodeTags P).length + 1) = 71 := by
    rw [hd, byteAt_append_right]; simp [byteAt]
  have hb := loopBody_of_RG a.TagData (encodeTags P).length (encodeTags P).length b0 b1
  rw [GetReadGroup_of_tagFound a readGroup _ _ hlen hr hb]
  have hdrop : a.TagData.drop ((encodeTags P).length + 3) = s ++ 0 :: t := by
    rw [hd, List.drop_append]; simp
  rw [hdrop, strlen_append_zero s t hs]
  simp

/-- Witness of C2: the concrete scenario of the specification (`P` and `t` empty, `s` the
string `sample1`), and a block in which an `i` entry and an `A` entry precede the first
`RG` entry and a second `RG` entry follows it. -/
theorem GetReadGroup_first_match_witness :
    (recordWithTags [82, 71, 90, 115, 97, 109, 112, 108, 101, 49, 0]).GetReadGroup [] =
        some (Outcome.returned true [115, 97, 109, 112, 108, 101, 49]) ∧
      (recordWithTags [88, 88, 105, 1, 0, 0, 0, 89, 89, 65, 0, 82, 71, 90, 97, 98, 0,
          82, 71, 90, 99, 0]).GetReadGroup [7] =
        some (Outcome.returned true [97, 98]) :=
  ⟨GetReadGroup_first_match _ [] [] [115, 97, 109, 112, 108, 101, 49] []
      (by simp) (by decide) (by rfl) (by decide),
    GetReadGroup_first_match _ [7] [⟨88, 88, 105, [1, 0, 0, 0]⟩, ⟨89, 89, 65, [0]⟩]
      [97, 98] [82, 71, 90, 99, 0]
      (by simp [TagEntry.IsFixedWidth, TagEntry.IsNamedRG, fixedWidth]) (by decide) (by rfl)
      (by decide)⟩

/-- C3 (failing input). The block `"XX" Z "sample1" 0x00 "YY" i 01 00 00 00` is the
concatenation of two well-formed entries, none named `"RG"`; the call on it does not
return `false`, it ends in `exit(1)`: after the skip of the `Z` value the cursor is on
its zero byte, and the byte `Y` is taken for the next type code. -/
theorem GetReadGroup_string_entries_no_RG_exits :
    (∀ e ∈ [(⟨88, 88, 90, [115, 97, 109, 112, 108, 101, 49, 0]⟩ : TagEntry),
        ⟨89, 89, 105, [1, 0, 0, 0]⟩], e.WellFormed ∧ ¬ e.IsNamedRG) ∧
    encodeTags [⟨88, 88, 90, [115, 97, 109, 112, 108, 101, 49, 0]⟩,
        ⟨89, 89, 105, [1, 0, 0, 0]⟩] =
      [88, 88, 90, 115, 97, 109, 112, 108, 101, 49, 0, 89, 89, 105, 1, 0, 0, 0] ∧
    scanState [88, 88, 90, 115, 97, 109, 112, 108, 101, 49, 0, 89, 89, 105, 1, 0, 0, 0] 18 1 =
      some (10, 10) ∧
    byteAt [88, 88, 90, 115, 97, 109, 112, 108, 101, 49, 0, 89, 89, 105, 1, 0, 0, 0] 12 = 89 ∧
    (recordWithTags [88, 88, 90, 115, 97, 109, 112, 108, 101, 49, 0, 89, 89, 105, 1, 0,
        0, 0]).GetReadGroup [] = some (Outcome.exited 1) := by
  refine ⟨?_, by decide⟩
  intro e he
  simp only [List.mem_cons, List.mem_singleton, List.not_mem_nil, or_false] at he
  rcases he with rfl | rfl
  · exact ⟨Or.inr ⟨Or.inl rfl, [115, 97, 109, 112, 108, 101, 49], by decide, rfl⟩,
      by decide⟩
  · exact ⟨Or.inl (by decide), by decide⟩

/-- C5 (counterexample). In the block `"RG" Z "abc"` the value of the matching entry has
no zero byte before the end of the buffer, and the call returns `true` with the
remaining bytes `abc` as the read group; in the block `"XX" Z "abc"` the value of the
skipped entry has none either, and the call returns `false`. -/
theorem GetReadGroup_unterminated_no_error :
    (recordWithTags [82, 71, 90, 97, 98, 99]).GetReadGroup [] =
        some (Outcome.returned true [97, 98, 99]) ∧
      (recordWithTags [88, 88, 90, 97, 98, 99]).GetReadGroup [] =
        some (Outcome.returned false []) := by
  decide

/-- C5 (amended). When the scan reaches an entry with the type code `Z` or `H` whose
value has no zero byte before the end of the buffer, no error is signalled: if the entry
is named `"RG"`, `GetReadGroup` returns `true` with all the bytes from the start of the
value to the end of the buffer as the read group; otherwise it returns `false` and
leaves `readGroup` as it is (tag data shorter than `2^32 - 8` bytes). -/
theorem GetReadGroup_unterminated_string (a : BamAlignment) (readGroup : List Nat) (p : Nat)
    (hlen : a.TagData.length + 8 ≤ 4294967296) (h : a.ScanReaches p)
    (ht : byteAt a.TagData (p + 2) = 90 ∨ byteAt a.TagData (p + 2) = 72)
    (hz : ∀ b ∈ a.TagData.drop (p + 3), b ≠ 0) :
    ((byteAt a.TagData p = 82 ∧ byteAt a.TagData (p + 1) = 71) →
      a.GetReadGroup readGroup = some (Outcome.returned true (a.TagData.drop (p + 3)))) ∧
    (¬ (byteAt a.TagData p = 82 ∧ byteAt a.TagData (p + 1) = 71) →
      a.GetReadGroup readGroup = some (Outcome.returned false readGroup)) := by
  have hsl := drop_no_zero_strlen a.TagData (p + 3) hz
  constructor
  · intro hrg
    have hb := loopBody_of_RG a.TagData p p hrg.1 hrg.2
    rw [GetReadGroup_of_tagFound a readGroup p (p + 3) hlen h hb, hsl]
    congr 2
    apply List.take_of_length_le
    simp
  · intro hn
    have hp := (scanLoop_at_reached a p hlen h).1
    have h2 : p + 2 < a.TagData.length := by
      by_contra hc
      have h0 : byteAt a.TagData (p + 2) = 0 := by
        unfold byteAt
        exact List.getD_eq_default _ _ (by omega)
      omega
    have hu : u32 (p + 3) = p + 3 := u32_of_lt (by omega)
    have hsk : SkipToNextTag a.TagData (byteAt a.TagData (p + 2)) (p + 3) (p + 3) =
        some (a.TagData.length, a.TagData.length) := by
      have hk := skipString_eq (a.TagData.drop (p + 3)) (p + 3) (p + 3) (by omega)
      rw [hsl] at hk
      unfold SkipToNextTag
      rcases ht with ht | ht <;> rw [ht] <;> simp [hk] <;> omega
    have hb : loopBody a.TagData p p = BodyEnd.next a.TagData.length a.TagData.length := by
      rw [loopBody_of_not_RG _ _ _ hn, hu, hsk]
    exact GetReadGroup_of_next_exhausted a readGroup p _ _ hlen h hb (le_refl _)

/-- Witness of C5 (amended): the blocks `"XX" c 01 "RG" Z "abc"` and
`"XX" c 01 "YY" H "abc"`, in which the unterminated value is reached at the offset 4. -/
theorem GetReadGroup_unterminated_string_witness :
    (recordWithTags [88, 88, 99, 1, 82, 71, 90, 97, 98, 99]).GetReadGroup [5] =
        some (Outcome.returned true [97, 98, 99]) ∧
      (recordWithTags [88, 88, 99, 1, 89, 89, 72, 97, 98, 99]).GetReadGroup [5] =
        some (Outcome.returned false [5]) :=
  ⟨(GetReadGroup_unterminated_string (recordWithTags [88, 88, 99, 1, 82, 71, 90, 97, 98, 99])
      [5] 4 (by decide) ⟨1, 4, by decide, by decide⟩ (by decide) (by decide)).1 (by decide),
    (GetReadGroup_unterminated_string (recordWithTags [88, 88, 99, 1, 89, 89, 72, 97, 98, 99])
      [5] 4 (by decide) ⟨1, 4, by decide, by decide⟩ (by decide) (by decide)).2 (by decide)⟩

/-- C6 (failing input). The block `"XX" Z "abc" 0x00 "YY" A 01` is the concatenation of
two well-formed entries, the second of which starts at the offset 7. After the header of
the first entry is consumed and `SkipToNextTag` is applied, the cursor and the counter
are 6, the offset of the terminating zero byte of the `Z` value, not 7; the next pass of
the loop takes the bytes `00 Y Y` from the offset 6 for a header, and the scan ends in
`exit(1)` instead of ending with `numBytesParsed` equal to the length 11. -/
theorem SkipToNextTag_string_stops_on_terminator :
    (∀ e ∈ [(⟨88, 88, 90, [97, 98, 99, 0]⟩ : TagEntry), ⟨89, 89, 65, [1]⟩],
      e.WellFormed ∧ ¬ e.IsNamedRG) ∧
    encodeTags [⟨88, 88, 90, [97, 98, 99, 0]⟩, ⟨89, 89, 65, [1]⟩] =
      [88, 88, 90, 97, 98, 99, 0, 89, 89, 65, 1] ∧
    (TagEntry.encode ⟨88, 88, 90, [97, 98, 99, 0]⟩).length = 7 ∧
    SkipToNextTag [88, 88, 90, 97, 98, 99, 0, 89, 89, 65, 1] 90 3 3 = some (6, 6) ∧
    byteAt [88, 88, 90, 97, 98, 99, 0, 89, 89, 65, 1] 6 = 0 ∧
    scanState [88, 88, 90, 97, 98, 99, 0, 89, 89, 65, 1] 11 1 = some (6, 6) ∧
    scanLoop [88, 88, 90, 97, 98, 99, 0, 89, 89, 65, 1] 11 11 0 0 =
      some ScanEnd.exitCalled := by
  refine ⟨?_, by decide⟩
  intro e he
  simp only [List.mem_cons, List.mem_singleton, List.not_mem_nil, or_false] at he
  rcases he with rfl | rfl
  · exact ⟨Or.inr ⟨Or.inl rfl, [97, 98, 99], by decide, rfl⟩, by decide⟩
  · exact ⟨Or.inl (by decide), by decide⟩

/-- C7. Empty buffer: when `TagData` is empty, `GetReadGroup` returns `false` at its first
statement, for every value of the argument `readGroup`, which it leaves as it is. -/
theorem GetReadGroup_empty (a : BamAlignment) (readGroup : List Nat) (h : a.TagData = []) :
    a.GetReadGroup readGroup = some (Outcome.returned false readGroup) := by
  simp [BamAlignment.GetReadGroup, h]

/-- Witness of C7: a record without tag data, called with `readGroup` holding `old`. -/
theorem GetReadGroup_empty_witness :
    (recordWithTags []).GetReadGroup [111, 108, 100] =
      some (Outcome.returned false [111, 108, 100]) :=
  GetReadGroup_empty (recordWithTags []) [111, 108, 100] rfl

/-! ## The flag queries: claims C8 and C9 -/

/-- C8. Flag predicate table: for every record, each of the eleven queries is the test
of one bit of `AlignmentFlag` (`testBit k` is the bit of value `2^k`): `IsPaired` bit 1
set, `IsProperPair` bit 2 set, `IsMapped` bit 4 clear, `IsMateMapped` bit 8 clear,
`IsReverseStrand` bit 16 set, `IsMateReverseStrand` bit 32 set, `IsFirstMate` bit 64 set,
`IsSecondMate` bit 128 set, `IsPrimaryAlignment` bit 256 clear, `IsFailedQC` bit 512 set,
`IsDuplicate` bit 1024 set. With the flag 4, `IsMapped` and `IsPaired` are false; with
the flag `1 | 64`, `IsPaired` and `IsFirstMate` are true and `IsSecondMate` is false. -/
theorem flag_predicate_table (a : BamAlignment) :
    (a.IsPaired = a.AlignmentFlag.testBit 0 ∧
      a.IsProperPair = a.AlignmentFlag.testBit 1 ∧
      a.IsMapped = !a.AlignmentFlag.testBit 2 ∧
      a.IsMateMapped = !a.AlignmentFlag.testBit 3 ∧
      a.IsReverseStrand = a.AlignmentFlag.testBit 4 ∧
      a.IsMateReverseStrand = a.AlignmentFlag.testBit 5 ∧
      a.IsFirstMate = a.AlignmentFlag.testBit 6 ∧
      a.IsSecondMate = a.AlignmentFlag.testBit 7 ∧
      a.IsPrimaryAlignment = !a.AlignmentFlag.testBit 8 ∧
      a.IsFailedQC = a.AlignmentFlag.testBit 9 ∧
      a.IsDuplicate = a.AlignmentFlag.testBit 10) ∧
    ((recordWithFlag 4).IsMapped = false ∧ (recordWithFlag 4).IsPaired = false) ∧
    ((recordWithFlag (1 ||| 64)).IsPaired = true ∧
      (recordWithFlag (1 ||| 64)).IsFirstMate = true ∧
      (recordWithFlag (1 ||| 64)).IsSecondMate = false) := by
  have h := flagQueries_eq a
  simp only [BamAlignment.flagQueries, List.cons.injEq, and_true] at h
  exact ⟨h, by decide, by decide⟩

/-- C9. Flag independence. With `AlignmentFlag` equal to one of the eleven flag constants
(only that bit set), the query of that bit has its set-bit value (`true`, and `false`
for `IsMapped`, `IsMateMapped`, `IsPrimaryAlignment`) and the other ten queries have
their clear-bit value (`true` for `IsMapped`, `IsMateMapped`, `IsPrimaryAlignment`,
`false` for the other eight); the lists give the queries in the order of their bits.
For every record, toggling one of the eleven bits of `AlignmentFlag` negates the query of
that bit and leaves the other ten queries unchanged. -/
theorem flag_independence :
    ((recordWithFlag PAIRED).flagQueries =
        [true, false, true, true, false, false, false, false, true, false, false] ∧
      (recordWithFlag PROPER_PAIR).flagQueries =
        [false, true, true, true, false, false, false, false, true, false, false] ∧
      (recordWithFlag UNMAPPED).flagQueries =
        [false, false, false, true, false, false, false, false, true, false, false] ∧
      (recordWithFlag MATE_UNMAPPED).flagQueries =
        [false, false, true, false, false, false, false, false, true, false, false] ∧
      (recordWithFlag REVERSE).flagQueries =
        [false, false, true, true, true, false, false, false, true, false, false] ∧
      (recordWithFlag MATE_REVERSE).flagQueries =
        [false, false, true, true, false, true, false, false, true, false, false] ∧
      (recordWithFlag READ_1).flagQueries =
        [false, false, true, true, false, false, true, false, true, false, false] ∧
      (recordWithFlag READ_2).flagQueries =
        [false, false, true, true, false, false, false, true, true, false, false] ∧
      (recordWithFlag SECONDARY).flagQueries =
        [false, false, true, true, false, false, false, false, false, false, false] ∧
      (recordWithFlag QC_FAILED).flagQueries =
        [false, false, true, true, false, false, false, false, true, true, false] ∧
      (recordWithFlag DUPLICATE).flagQueries =
        [false, false, true, true, false, false, false, false, true, false, true]) ∧
    ∀ (a : BamAlignment) (k j : Nat), k < 11 → j < 11 →
      ({ a with AlignmentFlag := a.AlignmentFlag ^^^ 2 ^ k }).flagQueries.getD j false =
        if j = k then !(a.flagQueries.getD j false) else a.flagQueries.getD j false := by
  refine ⟨by decide, ?_⟩
  intro a k j _ hj
  rw [flagQueries_eq, flagQueries_eq]
  simp only [testBit_xor_two_pow]
  interval_cases j <;> by_cases h : 0 = k <;> simp <;> split_ifs <;> simp

/-- Witness of C9: toggling bit 4 (`UNMAPPED`, `k = 2`) of the flag 65 changes `IsMapped`
(`j = 2`) from `true` to `false`, and leaves `IsFirstMate` (`j = 6`) `true`. -/
theorem flag_independence_witness :
    ({ recordWithFlag 65 with AlignmentFlag := 65 ^^^ 2 ^ 2 }).flagQueries.getD 2 false =
        !((recordWithFlag 65).flagQueries.getD 2 false) ∧
      ({ recordWithFlag 65 with AlignmentFlag := 65 ^^^ 2 ^ 2 }).flagQueries.getD 6 false =
        (recordWithFlag 65).flagQueries.getD 6 false :=
  ⟨flag_independence.2 (recordWithFlag 65) 2 2 (by decide) (by decide),
    flag_independence.2 (recordWithFlag 65) 2 6 (by decide) (by decide)⟩

/-! ## The type-width table: claim C10 -/

/-- C10. Type-width table for the fixed-width codes: `SkipToNextTag` moves the cursor
`pTagData` by 1 for `A`, `c`, `C`, by 2 for `s`, `S`, `f` and by 4 for `i`, `I`, from
every cursor position, and adds the same amount to the `unsigned int` counter
`numBytesParsed`: the counter grows by exactly that amount when the sum is below `2^32`,
and a counter equal to the offset of the cursor (as an `unsigned int`) stays equal
to it. -/
theorem SkipToNextTag_fixed_width (mem : List Nat) (pTagData numBytesParsed : Nat) :
    (fixedWidth 65 = some 1 ∧ fixedWidth 99 = some 1 ∧ fixedWidth 67 = some 1 ∧
      fixedWidth 115 = some 2 ∧ fixedWidth 83 = some 2 ∧ fixedWidth 102 = some 2 ∧
      fixedWidth 105 = some 4 ∧ fixedWidth 73 = some 4) ∧
    ∀ storageType w, fixedWidth storageType = some w →
      SkipToNextTag mem storageType pTagData numBytesParsed =
        some (pTagData + w, u32 (numBytesParsed + w)) ∧
      (numBytesParsed + w < 4294967296 →
        SkipToNextTag mem storageType pTagData numBytesParsed =
          some (pTagData + w, numBytesParsed + w)) ∧
      (numBytesParsed = u32 pTagData →
        SkipToNextTag mem storageType pTagData numBytesParsed =
          some (pTagData + w, u32 (pTagData + w))) := by
  refine ⟨by decide, ?_⟩
  intro t w h
  have hs := SkipToNextTag_fixed mem t w pTagData numBytesParsed h
  refine ⟨hs, ?_, ?_⟩
  · intro hlt
    rw [hs, u32_of_lt hlt]
  · intro he
    rw [hs, he]
    unfold u32
    simp

/-- Witness of C10: the code `i` with the cursor and the counter at 3, and the code `s`
with the cursor at `2^32 + 5` and the counter at 5. -/
theorem SkipToNextTag_fixed_width_witness :
    SkipToNextTag [88, 88, 105, 1, 0, 0, 0] 105 3 3 = some (7, 7) ∧
      SkipToNextTag [] 115 4294967301 5 = some (4294967303, 7) :=
  ⟨((SkipToNextTag_fixed_width [88, 88, 105, 1, 0, 0, 0] 3 3).2 105 4 (by decide)).2.1
      (by decide),
    ((SkipToNextTag_fixed_width [] 4294967301 5).2 115 2 (by decide)).2.2 (by decide)⟩

/-! ## Lemmas on the length of the scan -/

theorem loopBody_fixed_at (mem : List Nat) (p n w : Nat)
    (hn : ¬ (byteAt mem p = 82 ∧ byteAt mem (p + 1) = 71))
    (hw : fixedWidth (byteAt mem (p + 2)) = some w)
    (hlt : n + 3 + w < 4294967296) :
    loopBody mem p n = BodyEnd.next (p + 3 + w) (n + 3 + w) := by
  rw [loopBody_of_not_RG _ _ _ hn, SkipToNextTag_fixed _ _ _ _ _ hw]
  have h1 : u32 (n + 3) = n + 3 := u32_of_lt (by omega)
  have h2 : u32 (n + 3 + w) = n + 3 + w := u32_of_lt hlt
  simp only [h1, h2]

theorem fixedWidth_le_four (t w : Nat) (h : fixedWidth t = some w) : 1 ≤ w ∧ w ≤ 4 := by
  unfold fixedWidth at h
  split_ifs at h <;> simp at h <;> omega

theorem scanLoop_terminates (mem : List Nat) (hlen : mem.length + 8 ≤ 4294967296) :
    ∀ fuel p, mem.length ≤ p + 3 * fuel →
      ∃ e, scanLoop mem mem.length fuel p p = some e := by
  intro fuel
  induction fuel with
  | zero =>
    intro p hp
    exact ⟨ScanEnd.exhausted, scanLoop_of_not_lt _ _ _ _ _ (by omega)⟩
  | succ fuel ih =>
    intro p hp
    by_cases hlt : p < mem.length
    · cases hb : loopBody mem p p with
      | next q m =>
        obtain ⟨rfl, h3, -⟩ := loopBody_next_inv mem p q m hlen hlt hb
        obtain ⟨e, he⟩ := ih m (by omega)
        exact ⟨e, by simp [scanLoop, hlt, hb, he]⟩
      | tagFound q => exact ⟨ScanEnd.found q, by simp [scanLoop, hlt, hb]⟩
      | exitCalled => exact ⟨ScanEnd.exitCalled, by simp [scanLoop, hlt, hb]⟩
    · exact ⟨ScanEnd.exhausted, scanLoop_of_not_lt _ _ _ _ _ hlt⟩

theorem skipString_fst (l : List Nat) (p n : Nat) :
    (skipString l p n).1 = p + strlen l := by
  induction l generalizing p n with
  | nil => simp [skipString, strlen]
  | cons b rest ih =>
    by_cases hb : b = 0
    · simp [skipString, strlen, hb]
    · simp only [skipString, strlen, hb, ne_eq, not_false_eq_true, if_true]
      rw [ih]
      omega

theorem GetReadGroup_isSome_of_scanLoop (a : BamAlignment) (readGroup : List Nat) (e : ScanEnd)
    (h : scanLoop a.TagData (u32 a.TagData.length) a.TagData.length 0 0 = some e) :
    ∃ o, a.GetReadGroup readGroup = some o := by
  unfold BamAlignment.GetReadGroup
  by_cases he : a.TagData.isEmpty
  · exact ⟨Outcome.returned false readGroup, by simp [he]⟩
  · cases e with
    | found q =>
      exact ⟨Outcome.returned true ((a.TagData.drop q).take
        (u32 (strlen (a.TagData.drop q)))), by simp [he, h]⟩
    | exhausted => exact ⟨Outcome.returned false readGroup, by simp [he, h]⟩
    | exitCalled => exact ⟨Outcome.exited 1, by simp [he, h]⟩


/-! ## Additivity of the skip and termination: claims C11 and C12 -/

/-- C11. Additivity of the non-matching skip: when the scan is at the first of two
consecutive entries `A` and `B` whose names differ from `"RG"` and whose type codes are
fixed-width, with values of the widths `wA` and `wB` of the type-width table, one pass
of the loop of `GetReadGroup` adds `3 + wA` and two passes add exactly
`3 + wA + 3 + wB` to the cursor and to `numBytesParsed`, whatever the name bytes and
the value bytes of `A` and `B` (tag data shorter than `2^32 - 8` bytes). -/
theorem scan_two_fixed_entries (a : BamAlignment) (pre rest : List Nat) (A B : TagEntry)
    (k n wA wB : Nat)
    (hA : A.IsFixedWidth ∧ ¬ A.IsNamedRG) (hB : B.IsFixedWidth ∧ ¬ B.IsNamedRG)
    (hwA : fixedWidth A.storageType = some wA) (hwB : fixedWidth B.storageType = some wB)
    (hd : a.TagData = pre ++ (A.encode ++ (B.encode ++ rest)))
    (hlen : a.TagData.length + 8 ≤ 4294967296)
    (hk : scanState a.TagData (u32 a.TagData.length) k = some (pre.length, n)) :
    scanState a.TagData (u32 a.TagData.length) (k + 1) =
        some (pre.length + (3 + wA), n + (3 + wA)) ∧
      scanState a.TagData (u32 a.TagData.length) (k + 2) =
        some (pre.length + (3 + wA + 3 + wB), n + (3 + wA + 3 + wB)) := by
  have hu : u32 a.TagData.length = a.TagData.length := u32_of_lt (by omega)
  rw [hu] at hk ⊢
  obtain ⟨rfl, -, -⟩ := scanState_inv a.TagData k hlen _ _ hk
  have hvA : A.value.length = wA := by
    have := hA.1; unfold TagEntry.IsFixedWidth at this; rw [hwA] at this
    exact (Option.some.inj this).symm
  have hvB : B.value.length = wB := by
    have := hB.1; unfold TagEntry.IsFixedWidth at this; rw [hwB] at this
    exact (Option.some.inj this).symm
  have hlA : A.encode.length = 3 + wA := by simp [TagEntry.encode, hvA]; omega
  have hlB : B.encode.length = 3 + wB := by simp [TagEntry.encode, hvB]; omega
  have hl : a.TagData.length = pre.length + (3 + wA + (3 + wB + rest.length)) := by
    rw [hd]; simp only [List.length_append, hlA, hlB]
  have hb1 : loopBody a.TagData pre.length pre.length =
      BodyEnd.next (pre.length + (3 + wA)) (pre.length + (3 + wA)) := by
    have := loopBody_fixed_entry pre (B.encode ++ rest) A hA.1 hA.2 (by omega)
    rw [hlA, ← hd] at this
    exact this
  have h1 := scanState_succ _ _ _ _ _ _ _ hk (by omega) hb1
  have hb2 : loopBody a.TagData (pre.length + (3 + wA)) (pre.length + (3 + wA)) =
      BodyEnd.next (pre.length + (3 + wA + 3 + wB)) (pre.length + (3 + wA + 3 + wB)) := by
    have := loopBody_fixed_entry (pre ++ A.encode) rest B hB.1 hB.2
      (by simp only [List.length_append]; omega)
    simp only [List.length_append, List.append_assoc, hlA, hlB, ← hd] at this
    have e : pre.length + (3 + wA) + (3 + wB) = pre.length + (3 + wA + 3 + wB) := by omega
    rw [e] at this
    exact this
  have h2 := scanState_succ _ _ _ _ _ _ _ h1 (by omega) hb2
  exact ⟨h1, h2⟩

/-- Witness of C11: the entries `"XX" i 01 02 03 04` and `"YY" s 05 06` at the start of
the block, followed by `"ZZ" A 07`: two passes add `3 + 4 + 3 + 2 = 12`. -/
theorem scan_two_fixed_entries_witness :
    scanState [88, 88, 105, 1, 2, 3, 4, 89, 89, 115, 5, 6, 90, 90, 65, 7] (u32 16) 2 =
      some (12, 12) :=
  (scan_two_fixed_entries
    (recordWithTags [88, 88, 105, 1, 2, 3, 4, 89, 89, 115, 5, 6, 90, 90, 65, 7])
    [] [90, 90, 65, 7] ⟨88, 88, 105, [1, 2, 3, 4]⟩ ⟨89, 89, 115, [5, 6]⟩ 0 0 4 2
    (by decide) (by decide) (by decide) (by decide) (by rfl) (by decide) (by rfl)).2

/-- C12. No infinite loop: on tag data shorter than `2^32 - 8` bytes (reads at or past
the end of the buffer give the zero byte) the call of `GetReadGroup` ends, by a return
or by `exit(1)`; the scan loop ends within `ceil(length / 3)` iterations, and a pass
through its body that is entered is one of the first `ceil(length / 3)`; every pass
that reaches the end of the body has added at least 3 to `numBytesParsed`; and the walk
of `SkipToNextTag` over the `Z` or `H` value of an entry that the scan reaches stops no
later than the end of the buffer (a walk started at any cursor `p` stops no later than
the end of the buffer, or at `p` when `p` is beyond it). -/
theorem GetReadGroup_terminates (a : BamAlignment) (readGroup : List Nat)
    (hlen : a.TagData.length + 8 ≤ 4294967296) :
    (∃ o, a.GetReadGroup readGroup = some o) ∧
    (∃ e, scanLoop a.TagData (u32 a.TagData.length) ((a.TagData.length + 2) / 3) 0 0 =
      some e) ∧
    (∀ k p n, scanState a.TagData (u32 a.TagData.length) k = some (p, n) →
      n < u32 a.TagData.length → k + 1 ≤ (a.TagData.length + 2) / 3) ∧
    (∀ k p n p' n', scanState a.TagData (u32 a.TagData.length) k = some (p, n) →
      n < u32 a.TagData.length → loopBody a.TagData p n = BodyEnd.next p' n' →
      n + 3 ≤ n') ∧
    (∀ k p n p' n', scanState a.TagData (u32 a.TagData.length) k = some (p, n) →
      n < u32 a.TagData.length →
      (byteAt a.TagData (p + 2) = 90 ∨ byteAt a.TagData (p + 2) = 72) →
      loopBody a.TagData p n = BodyEnd.next p' n' →
      p' ≤ a.TagData.length ∧ n' ≤ a.TagData.length) ∧
    (∀ p n, (skipString (a.TagData.drop p) p n).1 ≤ max p a.TagData.length) := by
  have hu : u32 a.TagData.length = a.TagData.length := u32_of_lt (by omega)
  rw [hu]
  refine ⟨?_, ?_, ?_, ?_, ?_, ?_⟩
  · obtain ⟨e, he⟩ := scanLoop_terminates a.TagData hlen a.TagData.length 0 (by omega)
    exact GetReadGroup_isSome_of_scanLoop a readGroup e (by rw [hu]; exact he)
  · exact scanLoop_terminates a.TagData hlen _ 0 (by omega)
  · intro k p n hk hn
    obtain ⟨rfl, h3, -⟩ := scanState_inv a.TagData k hlen p n hk
    omega
  · intro k p n p' n' hk hn hb
    obtain ⟨rfl, h3, -⟩ := scanState_inv a.TagData k hlen p n hk
    obtain ⟨rfl, h4, -⟩ := loopBody_next_inv a.TagData n p' n' hlen hn hb
    omega
  · intro k p n p' n' hk hn ht hb
    obtain ⟨rfl, -, -⟩ := scanState_inv a.TagData k hlen p n hk
    obtain ⟨rfl, -, -⟩ := loopBody_next_inv a.TagData n p' n' hlen hn hb
    have h2 : n + 2 < a.TagData.length := by
      by_contra hc
      have h0 : byteAt a.TagData (n + 2) = 0 := by
        unfold byteAt
        exact List.getD_eq_default _ _ (by omega)
      omega
    have hnrg : ¬ (byteAt a.TagData n = 82 ∧ byteAt a.TagData (n + 1) = 71) := by
      intro hrg
      rw [loopBody_of_RG _ _ _ hrg.1 hrg.2] at hb
      cases hb
    have hs : SkipToNextTag a.TagData (byteAt a.TagData (n + 2)) (n + 3) (u32 (n + 3)) =
        some (skipString (a.TagData.drop (n + 3)) (n + 3) (u32 (n + 3))) := by
      unfold SkipToNextTag
      rcases ht with ht | ht <;> rw [ht] <;> simp
    rw [loopBody_of_not_RG _ _ _ hnrg, hs] at hb
    simp only [BodyEnd.next.injEq] at hb
    have hf := skipString_fst (a.TagData.drop (n + 3)) (n + 3) (u32 (n + 3))
    rw [hb.1] at hf
    have hsl := strlen_le_length (a.TagData.drop (n + 3))
    rw [List.length_drop] at hsl
    omega
  · intro p n
    rw [skipString_fst]
    have := strlen_le_length (a.TagData.drop p)
    rw [List.length_drop] at this
    omega

/-- Witness of C12: the block `"XX" Z "abc"` without a zero byte, and a block made of
the single byte `R`. -/
theorem GetReadGroup_terminates_witness :
    (∃ o, (recordWithTags [88, 88, 90, 97, 98, 99]).GetReadGroup [] = some o) ∧
      (∃ o, (recordWithTags [82]).GetReadGroup [] = some o) :=
  ⟨(GetReadGroup_terminates (recordWithTags [88, 88, 90, 97, 98, 99]) [] (by decide)).1,
    (GetReadGroup_terminates (recordWithTags [82]) [] (by decide)).1⟩

/-! ## Entries cut short by the end of the buffer -/

theorem byteAt_of_le (mem : List Nat) (i : Nat) (h : mem.length ≤ i) : byteAt mem i = 0 := by
  unfold byteAt
  exact List.getD_eq_default _ _ h

/-- C13 (counterexample). On the block `"XX" i 01 02` the scan reaches at the offset 0 an
entry not named `"RG"` with the fixed-width type code `i` of width 4 and only 2 value
bytes before the end of the buffer; the call returns `false`, that is not-found. On the
block `"XX"` the scan reaches at the offset 0 an entry of which only 2 header bytes are
left; the call returns no error value, it ends in `exit(1)`. -/
theorem GetReadGroup_truncated_value_not_found :
    ((recordWithTags [88, 88, 105, 1, 2]).ScanReaches 0 ∧
      fixedWidth (byteAt [88, 88, 105, 1, 2] 2) = some 4 ∧
      [88, 88, 105, 1, 2].length - 3 < 4 ∧
      (recordWithTags [88, 88, 105, 1, 2]).GetReadGroup [] =
        some (Outcome.returned false [])) ∧
    ((recordWithTags [88, 88]).ScanReaches 0 ∧
      [88, 88].length < 3 ∧
      (recordWithTags [88, 88]).GetReadGroup [] = some (Outcome.exited 1)) := by
  refine ⟨⟨⟨0, 0, by decide, by decide⟩, by decide, by decide, by decide⟩,
    ⟨⟨0, 0, by decide, by decide⟩, by decide, by decide⟩⟩

/-- C13 (amended). When the scan reaches an entry not named `"RG"` that overlaps the end
of the buffer, no decode error is returned. If the 3-byte header is complete and the
type code is fixed-width of width `w` with fewer than `w` value bytes left, the pass
depends on the three header bytes only (no byte of the value is read), it moves the
cursor and the counter by `3 + w` beyond the end of the buffer, and `GetReadGroup`
returns `false` and leaves `readGroup` as it is. If exactly 2 header bytes are left, the
type code is read at the index `size()`, where the terminating NUL of the string is,
and the call ends in `exit(1)` (tag data shorter than `2^32 - 8` bytes). -/
theorem GetReadGroup_truncated_entry (a : BamAlignment) (readGroup : List Nat) (p : Nat)
    (hlen : a.TagData.length + 8 ≤ 4294967296) (h : a.ScanReaches p)
    (hn : ¬ (byteAt a.TagData p = 82 ∧ byteAt a.TagData (p + 1) = 71)) :
    (∀ w, p + 3 ≤ a.TagData.length → fixedWidth (byteAt a.TagData (p + 2)) = some w →
      a.TagData.length < p + 3 + w →
      a.GetReadGroup readGroup = some (Outcome.returned false readGroup) ∧
      ∀ mem : List Nat, byteAt mem p = byteAt a.TagData p →
        byteAt mem (p + 1) = byteAt a.TagData (p + 1) →
        byteAt mem (p + 2) = byteAt a.TagData (p + 2) →
        loopBody mem p p = BodyEnd.next (p + 3 + w) (p + 3 + w)) ∧
    (p + 2 = a.TagData.length →
      byteAt a.TagData a.TagData.length = 0 ∧
      a.GetReadGroup readGroup = some (Outcome.exited 1)) := by
  have hp := (scanLoop_at_reached a p hlen h).1
  refine ⟨?_, ?_⟩
  · intro w h3 hw hlt
    have hw4 := fixedWidth_le_four _ _ hw
    have hb : ∀ mem : List Nat, byteAt mem p = byteAt a.TagData p →
        byteAt mem (p + 1) = byteAt a.TagData (p + 1) →
        byteAt mem (p + 2) = byteAt a.TagData (p + 2) →
        loopBody mem p p = BodyEnd.next (p + 3 + w) (p + 3 + w) := by
      intro mem e0 e1 e2
      exact loopBody_fixed_at mem p p w (by rw [e0, e1]; exact hn) (by rw [e2]; exact hw)
        (by omega)
    exact ⟨GetReadGroup_of_next_exhausted a readGroup p _ _ hlen h
      (hb a.TagData rfl rfl rfl) (by omega), hb⟩
  · intro h2
    have h0 : byteAt a.TagData (p + 2) = 0 := byteAt_of_le _ _ (by omega)
    have hb : loopBody a.TagData p p = BodyEnd.exitCalled := by
      rw [loopBody_of_not_RG _ _ _ hn, h0, SkipToNextTag_not_in_table _ _ _ _ (by decide)]
    rw [← h2]
    exact ⟨h0, GetReadGroup_of_exitCalled a readGroup p hlen h hb⟩

/-- Witness of C13 (amended): the blocks `"XX" c 01 "YY" i 01 02` (value cut short,
reached at the offset 4) and `"XX" c 01 "YY"` (type code missing). -/
theorem GetReadGroup_truncated_entry_witness :
    (recordWithTags [88, 88, 99, 1, 89, 89, 105, 1, 2]).GetReadGroup [5] =
        some (Outcome.returned false [5]) ∧
      (recordWithTags [88, 88, 99, 1, 89, 89]).GetReadGroup [5] = some (Outcome.exited 1) :=
  ⟨((GetReadGroup_truncated_entry (recordWithTags [88, 88, 99, 1, 89, 89, 105, 1, 2]) [5] 4
      (by decide) ⟨1, 4, by decide, by decide⟩ (by decide)).1 4 (by decide) (by decide)
      (by decide)).1,
    ((GetReadGroup_truncated_entry (recordWithTags [88, 88, 99, 1, 89, 89]) [5] 4
      (by decide) ⟨1, 4, by decide, by decide⟩ (by decide)).2 (by decide)).2⟩

/-! ## The frame of the call -/

theorem GetReadGroup_false_keeps (a : BamAlignment) (readGroup value : List Nat)
    (h : a.GetReadGroup readGroup = some (Outcome.returned false value)) :
    value = readGroup := by
  unfold BamAlignment.GetReadGroup at h
  split_ifs at h with he
  · simp only [Option.some.injEq, Outcome.returned.injEq, true_and] at h
    exact h.symm
  · simp only at h
    split at h
    · cases h
    · simp only [Option.some.injEq, Outcome.returned.injEq, true_and] at h
      exact h.symm
    · cases h
    · simp at h

theorem assignReadGroup_twice (st : CallState) (r : ReadGroupRef) (v w : List Nat) :
    (st.assignReadGroup r v).assignReadGroup r w = st.assignReadGroup r w := by
  cases r <;> rfl

theorem SkipToNextTag_congr (mem mem' : List Nat) (t q n : Nat)
    (h : t = 90 ∨ t = 72 → skipString (mem'.drop q) q n = skipString (mem.drop q) q n) :
    SkipToNextTag mem' t q n = SkipToNextTag mem t q n := by
  unfold SkipToNextTag
  split_ifs with h1 h2 h3 h4
  · rfl
  · rfl
  · rfl
  · rw [h h4]
  · rfl

theorem take_strlen (l : List Nat) : l.take (strlen l) = nonZeroRun l := by
  induction l with
  | nil => simp [strlen, nonZeroRun]
  | cons x xs ih =>
    unfold nonZeroRun at ih ⊢
    by_cases hx : x = 0
    · simp [strlen, hx, List.takeWhile]
    · have hb : (x != 0) = true := by simp [hx]
      simp [strlen, hx, List.takeWhile, ih, hb]

theorem loopBody_tagFound_inv (mem : List Nat) (p n q : Nat)
    (h : loopBody mem p n = BodyEnd.tagFound q) :
    q = p + 3 ∧ byteAt mem p = 82 ∧ byteAt mem (p + 1) = 71 := by
  by_cases hrg : byteAt mem p = 82 ∧ byteAt mem (p + 1) = 71
  · rw [loopBody_of_RG mem p n hrg.1 hrg.2] at h
    simp only [BodyEnd.tagFound.injEq] at h
    exact ⟨h.symm, hrg⟩
  · rw [loopBody_of_not_RG mem p n hrg] at h
    split at h <;> cases h

theorem scanLoop_found_inv (mem : List Nat) (len q : Nat) :
    ∀ fuel p n k0, scanLoop mem len fuel p n = some (ScanEnd.found q) →
      scanState mem len k0 = some (p, n) →
      ∃ k p' n', scanState mem len k = some (p', n') ∧ n' < len ∧
        loopBody mem p' n' = BodyEnd.tagFound q := by
  intro fuel
  induction fuel with
  | zero =>
    intro p n k0 h _
    simp only [scanLoop] at h
    split_ifs at h
    cases h
  | succ fuel ih =>
    intro p n k0 h hk
    simp only [scanLoop] at h
    by_cases hn : n < len
    swap
    · rw [if_neg hn] at h
      cases h
    rw [if_pos hn] at h
    cases hb : loopBody mem p n with
    | next p1 n1 =>
      rw [hb] at h
      exact ih p1 n1 (k0 + 1) h (scanState_succ _ _ _ _ _ _ _ hk hn hb)
    | tagFound q1 =>
      rw [hb] at h
      simp only [Option.some.injEq, ScanEnd.found.injEq] at h
      subst h
      exact ⟨k0, p, n, hk, hn, hb⟩
    | exitCalled =>
      rw [hb] at h
      cases h

theorem GetReadGroup_true_inv (a : BamAlignment) (readGroup value : List Nat)
    (h : a.GetReadGroup readGroup = some (Outcome.returned true value)) :
    ∃ q, scanLoop a.TagData (u32 a.TagData.length) a.TagData.length 0 0 =
        some (ScanEnd.found q) ∧
      value = (a.TagData.drop q).take (u32 (strlen (a.TagData.drop q))) := by
  unfold BamAlignment.GetReadGroup at h
  split_ifs at h with he
  · simp at h
  · simp only at h
    split at h
    · cases h
    · simp at h
    · cases h
    · rename_i q hq
      simp only [Option.some.injEq, Outcome.returned.injEq, true_and] at h
      exact ⟨q, hq, h.symm⟩

theorem getElem?_of_byteAt (mem : List Nat) (i v : Nat) (hv : v ≠ 0) (h : byteAt mem i = v) :
    i < mem.length ∧ mem[i]? = some v := by
  have hi : i < mem.length := by
    by_contra hc
    rw [byteAt_of_le mem i (by omega)] at h
    exact hv h.symm
  refine ⟨hi, ?_⟩
  unfold byteAt at h
  rw [List.getD_eq_getElem?_getD, List.getElem?_eq_getElem hi] at h
  rw [List.getElem?_eq_getElem hi]
  simpa using h

theorem split_at_two (mem : List Nat) (k x y : Nat)
    (hx : mem[k]? = some x) (hy : mem[k + 1]? = some y) :
    mem = mem.take k ++ [x, y] ++ mem.drop (k + 2) := by
  obtain ⟨h0, e0⟩ := List.getElem?_eq_some.1 hx
  obtain ⟨h1, e1⟩ := List.getElem?_eq_some.1 hy
  have d0 : mem.drop k = x :: mem.drop (k + 1) := by
    rw [List.drop_eq_getElem_cons h0, e0]
  have d1 : mem.drop (k + 1) = y :: mem.drop (k + 2) := by
    rw [List.drop_eq_getElem_cons h1, e1]
  calc mem = mem.take k ++ mem.drop k := (List.take_append_drop k mem).symm
    _ = mem.take k ++ [x, y] ++ mem.drop (k + 2) := by rw [d0, d1]; simp

/-! ## Lemmas on the memory behind the terminating NUL -/

theorem byteAt_append_left (l r : List Nat) (i : Nat) (h : i < l.length) :
    byteAt (l ++ r) i = byteAt l i := by
  simp [byteAt, List.getD_eq_getElem?_getD, List.getElem?_append_left h]

theorem byteAt_terminator (l beyond : List Nat) : byteAt (l ++ 0 :: beyond) l.length = 0 := by
  rw [byteAt_append_right_zero]
  rfl

theorem nonZeroRun_append_zero (l beyond : List Nat) :
    nonZeroRun (l ++ 0 :: beyond) = nonZeroRun l := by
  induction l with
  | nil => simp [nonZeroRun, List.takeWhile]
  | cons x xs ih =>
    unfold nonZeroRun at ih ⊢
    by_cases hx : x = 0
    · simp [hx, List.takeWhile]
    · have hb : (x != 0) = true := by simp [hx]
      simp [List.takeWhile, hb, ih]

theorem scanState_inv_le (mem : List Nat) (len k : Nat)
    (hlen : mem.length + 8 ≤ 4294967296) (hle : len ≤ mem.length) :
    ∀ p n, scanState mem len k = some (p, n) →
      n = p ∧ 3 * k ≤ p ∧ p ≤ mem.length + 6 := by
  induction k with
  | zero =>
    intro p n h
    simp only [scanState, Option.some.injEq, Prod.mk.injEq] at h
    omega
  | succ k ih =>
    intro p' n' h
    obtain ⟨p, n, hk, hn, hb⟩ := scanState_succ_inv mem len k p' n' h
    obtain ⟨rfl, h3, -⟩ := ih p n hk
    have := loopBody_next_inv mem n p' n' hlen (by omega) hb
    omega

theorem GetReadGroupInMemory_true_inv (a : BamAlignment) (beyond readGroup value : List Nat)
    (h : a.GetReadGroupInMemory beyond readGroup = some (Outcome.returned true value)) :
    ∃ q, scanLoop (a.TagData ++ 0 :: beyond) (u32 a.TagData.length) a.TagData.length 0 0 =
        some (ScanEnd.found q) ∧
      value = ((a.TagData ++ 0 :: beyond).drop q).take
        (u32 (strlen ((a.TagData ++ 0 :: beyond).drop q))) := by
  unfold BamAlignment.GetReadGroupInMemory at h
  split_ifs at h with he
  · simp at h
  · simp only at h
    split at h
    · cases h
    · simp at h
    · cases h
    · rename_i q hq
      simp only [Option.some.injEq, Outcome.returned.injEq, true_and] at h
      exact ⟨q, hq, h.symm⟩

theorem byteAt_append_terminator (l : List Nat) (i : Nat) :
    byteAt (l ++ [0]) i = byteAt l i := by
  by_cases h : i < l.length
  · exact byteAt_append_left _ _ _ h
  · rw [byteAt_of_le l i (by omega)]
    obtain ⟨j, rfl⟩ : ∃ j, i = l.length + j := ⟨i - l.length, by omega⟩
    rw [byteAt_append_right]
    cases j <;> simp [byteAt]

theorem skipString_append_terminator (l : List Nat) (p n : Nat) :
    skipString (l ++ [0]) p n = skipString l p n := by
  induction l generalizing p n with
  | nil => simp [skipString]
  | cons x xs ih =>
    by_cases hx : x = 0
    · simp [skipString, hx]
    · simp only [List.cons_append, skipString, hx, ne_eq, not_false_eq_true, if_true]
      exact ih _ _

theorem strlen_append_terminator (l : List Nat) : strlen (l ++ [0]) = strlen l := by
  induction l with
  | nil => simp [strlen]
  | cons x xs ih =>
    by_cases hx : x = 0
    · simp [strlen, hx]
    · simp [strlen, hx, ih]

theorem drop_append_terminator (l : List Nat) (q : Nat) :
    (l ++ [0]).drop q = l.drop q ++ [0] ∨ ((l ++ [0]).drop q = [] ∧ l.drop q = []) := by
  by_cases h : q ≤ l.length
  · exact Or.inl (List.drop_append_of_le_length h)
  · exact Or.inr ⟨List.drop_eq_nil_of_le (by simp; omega), List.drop_eq_nil_of_le (by omega)⟩

theorem loopBody_append_terminator (l : List Nat) (p n : Nat) :
    loopBody (l ++ [0]) p n = loopBody l p n := by
  have hs : ∀ t q m, SkipToNextTag (l ++ [0]) t q m = SkipToNextTag l t q m := by
    intro t q m
    apply SkipToNextTag_congr
    intro _
    rcases drop_append_terminator l q with h | ⟨h1, h2⟩
    · rw [h, skipString_append_terminator]
    · rw [h1, h2]
  by_cases hrg : byteAt l p = 82 ∧ byteAt l (p + 1) = 71
  · rw [loopBody_of_RG l p n hrg.1 hrg.2,
      loopBody_of_RG (l ++ [0]) p n (by rw [byteAt_append_terminator]; exact hrg.1)
        (by rw [byteAt_append_terminator]; exact hrg.2)]
  · rw [loopBody_of_not_RG l p n hrg,
      loopBody_of_not_RG (l ++ [0]) p n (by
        rw [byteAt_append_terminator, byteAt_append_terminator]; exact hrg),
      byteAt_append_terminator, hs]

theorem scanLoop_append_terminator (l : List Nat) (len : Nat) :
    ∀ fuel p n, scanLoop (l ++ [0]) len fuel p n = scanLoop l len fuel p n := by
  intro fuel
  induction fuel with
  | zero => intro p n; simp [scanLoop]
  | succ fuel ih =>
    intro p n
    simp only [scanLoop, loopBody_append_terminator]
    split_ifs
    · cases loopBody l p n with
      | next q m => exact ih q m
      | tagFound q => rfl
      | exitCalled => rfl
    · rfl

/-- With no byte behind the terminating NUL, where every read past it gives `0`, the call
in memory is the call `GetReadGroup`. -/
theorem GetReadGroupInMemory_nil (a : BamAlignment) (readGroup : List Nat) :
    a.GetReadGroupInMemory [] readGroup = a.GetReadGroup readGroup := by
  unfold BamAlignment.GetReadGroupInMemory BamAlignment.GetReadGroup
  simp only [scanLoop_append_terminator]
  split_ifs
  · rfl
  · cases scanLoop a.TagData (u32 a.TagData.length) a.TagData.length 0 0 with
    | none => rfl
    | some e =>
      cases e with
      | exhausted => rfl
      | exitCalled => rfl
      | found q =>
        simp only [Option.some.injEq, Outcome.returned.injEq, true_and]
        rcases drop_append_terminator a.TagData q with h | ⟨h1, h2⟩
        · rw [h, strlen_append_terminator]
          have hs := strlen_le_length (a.TagData.drop q)
          have hu : u32 (strlen (a.TagData.drop q)) ≤ strlen (a.TagData.drop q) := by
            unfold u32; exact Nat.mod_le _ _
          exact List.take_append_of_le_length (by omega)
        · rw [h1, h2]

/-! ## Soundness of a found read group: claim C16 -/

/-- C16 (counterexample). On the tag data `"RG"`, with the bytes `s t 00` behind the
terminating NUL of the string, the call returns `true` and the read group assigned is
`st`, two bytes that are not in the buffer; for every offset `k` the run of non-zero
bytes of the buffer from `k + 3` is empty. -/
theorem GetReadGroup_found_past_end :
    (recordWithTags [82, 71]).GetReadGroupInMemory [115, 116, 0] [] =
      some (Outcome.returned true [115, 116]) ∧
    (∀ k, nonZeroRun ((recordWithTags [82, 71]).TagData.drop (k + 3)) = []) ∧
    (∀ k, nonZeroRun ((recordWithTags [82, 71]).TagData.drop (k + 3)) ≠ [115, 116]) := by
  have hk : ∀ k, nonZeroRun ((recordWithTags [82, 71]).TagData.drop (k + 3)) = [] := by
    intro k
    have hd : (recordWithTags [82, 71]).TagData.drop (k + 3) = [] :=
      List.drop_eq_nil_of_le (by simp [recordWithTags])
    rw [hd]
    rfl
  refine ⟨by decide, hk, ?_⟩
  intro k
  rw [hk k]
  decide

/-- C16 (amended). Soundness of a found result, whatever bytes lie behind the
terminating NUL of the string: when `GetReadGroup` returns `true`, the scan has
reached, as the start of an entry, an offset `k` with `k + 1` inside the buffer and the
bytes `R`, `G` at `k` and `k + 1`; when the 3-byte header of that entry is inside the
buffer (`k + 3` at most the length), the read group assigned is exactly the maximal run
of non-zero bytes of the buffer from the offset `k + 3`, empty when `k + 3` is the
length; the read group has no zero byte; and the buffer contains the bytes `"RG"`
(tag data and the bytes behind it together shorter than `2^32 - 8` bytes). -/
theorem GetReadGroup_found_sound (a : BamAlignment) (beyond readGroup value : List Nat)
    (hlen : (a.TagData ++ 0 :: beyond).length + 8 ≤ 4294967296)
    (h : a.GetReadGroupInMemory beyond readGroup = some (Outcome.returned true value)) :
    (∃ k, k + 1 < a.TagData.length ∧ a.TagData[k]? = some 82 ∧
      a.TagData[k + 1]? = some 71 ∧ a.ScanReachesInMemory beyond k ∧
      (k + 3 ≤ a.TagData.length → value = nonZeroRun (a.TagData.drop (k + 3))) ∧
      (k + 3 = a.TagData.length → value = [])) ∧
    (∀ b ∈ value, b ≠ 0) ∧
    (∃ pre post, a.TagData = pre ++ [82, 71] ++ post) := by
  obtain ⟨q, hq, hv⟩ := GetReadGroupInMemory_true_inv a beyond readGroup value h
  obtain ⟨k, p, n, hk, hn, hb⟩ :=
    scanLoop_found_inv (a.TagData ++ 0 :: beyond) _ q _ 0 0 0 hq (by simp [scanState])
  have hml : (a.TagData ++ 0 :: beyond).length = a.TagData.length + 1 + beyond.length := by
    simp; omega
  have hu : u32 a.TagData.length = a.TagData.length := u32_of_lt (by omega)
  rw [hu] at hk hn
  obtain ⟨rfl, -, -⟩ := scanState_inv_le _ _ k hlen (by omega) p n hk
  obtain ⟨rfl, h0, h1⟩ := loopBody_tagFound_inv _ _ _ _ hb
  rw [byteAt_append_left _ _ _ hn] at h0
  have l1 : n + 1 < a.TagData.length := by
    by_contra hc
    have e : n + 1 = a.TagData.length := by omega
    rw [e, byteAt_terminator] at h1
    cases h1
  rw [byteAt_append_left _ _ _ l1] at h1
  obtain ⟨-, g0⟩ := getElem?_of_byteAt _ _ 82 (by decide) h0
  obtain ⟨-, g1⟩ := getElem?_of_byteAt _ _ 71 (by decide) h1
  have hs := strlen_le_length ((a.TagData ++ 0 :: beyond).drop (n + 3))
  rw [List.length_drop] at hs
  have hu2 : u32 (strlen ((a.TagData ++ 0 :: beyond).drop (n + 3))) =
      strlen ((a.TagData ++ 0 :: beyond).drop (n + 3)) := u32_of_lt (by omega)
  rw [hu2, take_strlen] at hv
  have hrun : n + 3 ≤ a.TagData.length → value = nonZeroRun (a.TagData.drop (n + 3)) := by
    intro h3
    rw [hv, List.drop_append_of_le_length h3, nonZeroRun_append_zero]
  refine ⟨⟨n, l1, g0, g1, ⟨k, n, by rw [hu]; exact hk, by rw [hu]; exact hn⟩, hrun, ?_⟩,
    ?_, ?_⟩
  · intro h3
    rw [hrun (by omega), List.drop_eq_nil_of_le (by omega)]
    rfl
  · intro b hb0
    rw [hv] at hb0
    have := List.mem_takeWhile_imp hb0
    simpa using this
  · exact ⟨a.TagData.take n, a.TagData.drop (n + 2), split_at_two _ _ _ _ g0 g1⟩

/-- Witness of C16 (amended): the block `"XX" c 01 "RG" Z "ab" 00 "YY"` with the bytes
`07 07` behind its NUL, where the call returns `true` with the read group `ab`. -/
theorem GetReadGroup_found_sound_witness :
    (recordWithTags [88, 88, 99, 1, 82, 71, 90, 97, 98, 0, 89, 89]).GetReadGroupInMemory
        [7, 7] [] = some (Outcome.returned true [97, 98]) ∧
      (∀ b ∈ ([97, 98] : List Nat), b ≠ 0) ∧
      ∃ pre post, [88, 88, 99, 1, 82, 71, 90, 97, 98, 0, 89, 89] = pre ++ [82, 71] ++ post :=
  ⟨by decide,
    (GetReadGroup_found_sound (recordWithTags [88, 88, 99, 1, 82, 71, 90, 97, 98, 0, 89, 89])
      [7, 7] [] [97, 98] (by decide) (by decide)).2⟩

end BamTools
